import Mathlib

/-!
# SendEml: a shallow embedding of the dispatch engine

The embedding follows `src/main.go`, `src/utils/readAccountConfig.go` and
`src/utils/emlFile.go`.

* Go strings and byte slices are lists of bytes (`GoBytes`).
* Every network or file operation of a dispatch unit gets its result from an
  `Outcome` record (one boolean per fallible call), so a unit is a pure function
  from the outcome of its calls to the trace of `Event`s it performs.
* `time.Duration` and `int` are 64-bit: arithmetic on them is `Int` arithmetic
  followed by `wrap64`.
* The goroutines of a run are interleaved by the step function `Sys.step`.
  Channel and wait-group operations are atomic; the append to the shared
  `timeList` is a read followed by a write, and the index a unit finds in the
  shared `accountIndex` is arbitrary (`anonymousUnitRacing`).
-/

namespace SendEml

/-! ## Bytes, strings, accounts -/

/-- A Go `string` or `[]byte`: a finite sequence of bytes, not necessarily UTF-8. -/
abbrev GoBytes := List UInt8

/-- `utils.Account` (readAccountConfig.go, lines 10-13). -/
structure Account where
  Username : GoBytes
  Password : GoBytes
  deriving DecidableEq, Repr

/-- `utils.StringToBytes` (emlFile.go, lines 42-44): the slice header is read off the
string header, the bytes are shared and not transformed. -/
def StringToBytes (data : GoBytes) : GoBytes := data

/-- `utils.BytesToString` (emlFile.go, lines 46-48): `string(data)` copies the bytes. -/
def BytesToString (data : GoBytes) : GoBytes := data

/-- `utils.ReadEml` (emlFile.go, lines 34-40) on the result of `ioutil.ReadFile`:
`none` is the `panic(err)` of a failed read, otherwise `string(content)`. -/
def ReadEml (file : Option GoBytes) : Option GoBytes :=
  match file with
  | none => none
  | some content => some (BytesToString content)

/-- `bytes.Split(s, sep)` of the Go standard library for a separator of one byte:
the segments between the occurrences of `sep`, in order; one more segment
than there are separators, so never an empty result. -/
def bytesSplit (sep : UInt8) : GoBytes → List GoBytes
  | [] => [[]]
  | b :: rest =>
    if b = sep then [] :: bytesSplit sep rest
    else
      match bytesSplit sep rest with
      | [] => [[b]]
      | hd :: tl => (b :: hd) :: tl

/-- The byte `'\n'`. -/
def newline : UInt8 := 10

/-- The byte `','`. -/
def comma : UInt8 := 44

/-- The loop of `ReadAccountConfig` (readAccountConfig.go, lines 25-34) over the
remaining lines, `accountConfig` being the slice built so far; `none` is the
`log.Fatalf` of line 30. -/
def readAccountLines : List GoBytes → List Account → Option (List Account)
  | [], accountConfig => some accountConfig
  | line :: rest, accountConfig =>
    match bytesSplit comma line with
    | [username, password] =>
      readAccountLines rest (accountConfig ++ [{ Username := username, Password := password }])
    | _ => none

/-- `utils.ReadAccountConfig` (readAccountConfig.go, lines 15-36) on the result of
`os.ReadFile`: `file = none` is a failed read (fatal, line 20); the result
`none` is a fatal exit. -/
def ReadAccountConfig (file : Option GoBytes) : Option (List Account) :=
  match file with
  | none => none
  | some content => readAccountLines (bytesSplit newline content) []

/-! ## The rotating account index -/

/-- One draw from the account list (main.go, lines 348-351 and 356; the same in
lines 455-463, 575-580 and 681-686): wrap check, read, increment. The result is
the index that was dereferenced, the account read there and the new value of
`accountIndex`; `none` is the index-out-of-range fault of `accountInfo[accountIndex]`. -/
def drawAccount (accountInfo : List Account) (accountIndex : Nat) :
    Option (Nat × Account × Nat) :=
  let idx := if accountIndex ≥ accountInfo.length then 0 else accountIndex
  match accountInfo.get? idx with
  | none => none
  | some a => some (idx, a, idx + 1)

/-- The first `k` sequential draws starting from index `accountIndex`: the list
of (index dereferenced, account read), or `none` when a draw faults. -/
def drawMany (accountInfo : List Account) : Nat → Nat → Option (List (Nat × Account))
  | _, 0 => some []
  | accountIndex, k + 1 =>
    match drawAccount accountInfo accountIndex with
    | none => none
    | some (idx, a, next) =>
      match drawMany accountInfo next k with
      | none => none
      | some rest => some ((idx, a) :: rest)

/-! ## 64-bit arithmetic, pacing and the summary -/

/-- Wrap-around of a mathematical integer to the range of `int64`. -/
def wrap64 (x : Int) : Int := (x + 2 ^ 63) % 2 ^ 64 - 2 ^ 63

/-- `TIME_UNIT` (main.go, lines 21-29) in nanoseconds; a key that is not in the
map reads as the zero duration. -/
def TIME_UNIT (sleepUnit : String) : Int :=
  match sleepUnit with
  | "s" => 1000000000
  | "ms" => 1000000
  | "us" => 1000
  | "ns" => 1
  | _ => 0

/-- The three commands of the program (main.go, lines 108-245). -/
inductive Mode
  | Anonymous
  | Login
  | Replay
  deriving DecidableEq, Repr

/-- The argument of `time.Sleep` before an admission, in nanoseconds:
`time.Duration(SleepTime) * sleepUnit` with `sleepUnit := TIME_UNIT[...]` in
Anonymous and Login mode (lines 275, 299-300, 407-408, 537, 567-568, 673-674),
`time.Duration(SleepTime) * time.Second` in Replay mode (lines 832-833). -/
def pacingDelay (mode : Mode) (sleep : Int) (sleepUnit : String) : Int :=
  match mode with
  | .Anonymous => wrap64 (sleep * TIME_UNIT sleepUnit)
  | .Login => wrap64 (sleep * TIME_UNIT sleepUnit)
  | .Replay => wrap64 (sleep * 1000000000)

/-- The first loop of the summary (main.go, lines 505-508 and 775-778):
`sum += v` on `time.Duration`. -/
def sumLoop (timeList : List Int) : Int :=
  timeList.foldl (fun sum v => wrap64 (sum + v)) 0

/-- The second loop of the summary (main.go, lines 512-517 and 782-787). -/
def maxLoop (timeList : List Int) : Int :=
  timeList.foldl (fun max v => if v > max then v else max) 0

/-- The values computed after the run. -/
structure Summary where
  sum : Int
  avg : Int
  max : Int
  deriving DecidableEq, Repr

/-- The summary computation (main.go, lines 505-517 and 775-787). The division
`sum / time.Duration(len(timeList))` is Go integer division (truncated); with a
zero divisor it is the run-time panic `integer divide by zero`, here `none`. -/
def summary (timeList : List Int) : Option Summary :=
  let sum := sumLoop timeList
  if (timeList.length : Int) = 0 then none
  else
    some { sum := sum, avg := Int.tdiv sum (timeList.length : Int), max := maxLoop timeList }

/-! ## Dispatch units -/

/-- The flags read by the dispatch code through `cli.Context` (main.go, lines 48-107
and 136-147). -/
structure Context where
  fromAddr : GoBytes
  password : GoBytes
  accountConfig : String
  timeThreshold : Int
  sleep : Int
  sleepUnit : String
  thread : Nat
  deriving DecidableEq, Repr

/-- The results of the fallible calls of one attempt: `file` is what
`ioutil.ReadFile` returns for the message (`none` on error), the booleans
tell whether `Dial`, `smtp.NewClient`, `Auth`, `Mail`, `Rcpt`, `Data`,
`Write` and `Close` return a nil error. -/
structure Outcome where
  file : Option GoBytes
  dial : Bool
  newClient : Bool
  auth : Bool
  mail : Bool
  rcpt : Bool
  data : Bool
  write : Bool
  close : Bool
  deriving DecidableEq, Repr

/-- What a dispatch unit does that is visible outside of it. `recvPool` is
`<-workerPool`, `wgDone` is `wg.Done()`, `appendTime` is
`timeList = append(timeList, duration)`, `sendResult` is `results <- ...`,
`fatal` is the `os.Exit(1)` of `log.Fatalf`, `crash` is a panic that no
`recover` catches, `recovered` is a panic caught by `recover`. -/
inductive Event
  | sendResult
  | dial (ok : Bool)
  | connClose
  | newClient (ok : Bool)
  | auth (username password : GoBytes) (ok : Bool)
  | mail (sender : GoBytes) (ok : Bool)
  | rcpt (ok : Bool)
  | data (ok : Bool)
  | write (content : GoBytes) (ok : Bool)
  | close (ok : Bool)
  | sendMail (content : GoBytes) (ok : Bool)
  | logError
  | recvPool
  | wgDone
  | appendTime
  | recovered
  | fatal
  | crash
  deriving DecidableEq, Repr

/-- How the body of the Anonymous goroutine ends: its events (the deferred
`conn.Close()` included), whether it ended in a panic, and `accountIndex`
afterwards. -/
structure Body where
  events : List Event
  panicked : Bool
  accountIndex : Nat
  deriving DecidableEq, Repr

/-- The body of the Anonymous goroutine (main.go, lines 313-384; lines 421-491
are the same statements without two log lines). `ReadEml` panics on a failed
read; a failed `Dial` or `NewClient` returns; `Mail`, `Rcpt`, `Write` and `Close`
errors are logged and the body goes on; a failed `Data` leaves `writer` nil,
and `writer.Write` on it is a nil dereference. -/
def anonymousBody (ctx : Context) (accountInfo : List Account) (accountIndex : Nat)
    (o : Outcome) : Body :=
  match ReadEml o.file with
  | none => { events := [], panicked := true, accountIndex := accountIndex }
  | some eml =>
    let emlContent := StringToBytes eml
    if !o.dial then
      { events := [.dial false], panicked := false, accountIndex := accountIndex }
    else if !o.newClient then
      { events := [.dial true, .newClient false, .connClose], panicked := false,
        accountIndex := accountIndex }
    else
      let sender : Option (GoBytes × Nat) :=
        if ctx.accountConfig ≠ "" then
          match drawAccount accountInfo accountIndex with
          | none => none
          | some (_, a, next) => some (a.Username, next)
        else some (ctx.fromAddr, accountIndex)
      match sender with
      | none =>
        { events := [.dial true, .newClient true, .connClose], panicked := true,
          accountIndex := 0 }
      | some (emailAddr, next) =>
        if !o.data then
          { events := [.dial true, .newClient true, .mail emailAddr o.mail, .rcpt o.rcpt,
              .data false, .connClose],
            panicked := true, accountIndex := next }
        else
          { events := [.dial true, .newClient true, .mail emailAddr o.mail, .rcpt o.rcpt,
              .data true, .write emlContent o.write, .close o.close, .appendTime, .connClose],
            panicked := false, accountIndex := next }

/-- The Anonymous goroutine (main.go, lines 302-387 and 410-494): the body, then
the deferred `recover` (lines 308-312), then the deferred release of the pool
slot and `wg.Done()` (lines 304-307). -/
def anonymousUnit (ctx : Context) (accountInfo : List Account) (accountIndex : Nat)
    (o : Outcome) : List Event × Nat :=
  let b := anonymousBody ctx accountInfo accountIndex o
  (b.events ++ (if b.panicked then [.recovered] else []) ++ [.recvPool, .wgDone],
    b.accountIndex)

/-- The Login goroutine (main.go, lines 570-655 when `timed`, for
`timeThreshold > 0`, and lines 676-765 otherwise). All the work is in the
deferred function and no `recover` is installed. In the timed variant
`results <- ...` runs first and `Mail` and `Rcpt` errors go to `log.Fatalf`;
in the other variant they are logged and `results <- ...` comes after the
release. `err` at lines 641 and 751 is the error of `writer.Write`. -/
def loginUnit (timed : Bool) (ctx : Context) (accountInfo : List Account)
    (accountIndex : Nat) (o : Outcome) : List Event × Nat :=
  let start : List Event := if timed then [.sendResult] else []
  let cred : Option (GoBytes × GoBytes × Nat) :=
    if ctx.accountConfig ≠ "" then
      match drawAccount accountInfo accountIndex with
      | none => none
      | some (_, a, next) => some (a.Username, a.Password, next)
    else some (ctx.fromAddr, ctx.password, accountIndex)
  match cred with
  | none => (start ++ [.crash], 0)
  | some (emailAddr, passWord, next) =>
    match ReadEml o.file with
    | none => (start ++ [.crash], next)
    | some eml =>
      let emlContent := StringToBytes eml
      if !o.dial then (start ++ [.dial false], next)
      else if !o.newClient then
        (start ++ [.dial true, .newClient false, .connClose], next)
      else if !o.auth then
        (start ++ [.dial true, .newClient true, .auth emailAddr passWord false, .fatal], next)
      else if timed && !o.mail then
        (start ++ [.dial true, .newClient true, .auth emailAddr passWord true,
          .mail emailAddr false, .fatal], next)
      else if timed && !o.rcpt then
        (start ++ [.dial true, .newClient true, .auth emailAddr passWord true,
          .mail emailAddr o.mail, .rcpt false, .fatal], next)
      else if !o.data then
        (start ++ [.dial true, .newClient true, .auth emailAddr passWord true,
          .mail emailAddr o.mail, .rcpt o.rcpt, .data false, .connClose, .crash], next)
      else
        (start ++ [.dial true, .newClient true, .auth emailAddr passWord true,
            .mail emailAddr o.mail, .rcpt o.rcpt, .data true, .write emlContent o.write,
            .close o.close]
          ++ (if !o.write then [.recvPool, .wgDone, .logError] else [])
          ++ [.recvPool, .wgDone]
          ++ (if timed then [] else [.sendResult])
          ++ [.appendTime, .connClose], next)

/-- `utils.GetEmlFileForMinio` (emlFile.go, lines 86-95): `path[5:]` is a
slice-bounds panic (`none`) on a path shorter than five bytes; `object` is
what the object store holds under the key. -/
def GetEmlFileForMinio (path : GoBytes) (object : GoBytes) : Option GoBytes :=
  if path.length < 5 then none else some object

/-- The Replay goroutine (main.go, lines 835-852): `results <- ...`, then the
deferred function: fetch, `smtp.SendMail`, and on an error a release and
`wg.Done()` before the release and `wg.Done()` that always run. -/
def replayUnit (emlFilePath : GoBytes) (object : GoBytes) (sendOk : Bool) : List Event :=
  match GetEmlFileForMinio emlFilePath object with
  | none => [.sendResult, .crash]
  | some emlContent =>
    [.sendResult, .sendMail emlContent sendOk]
      ++ (if !sendOk then [.recvPool, .wgDone, .logError] else [])
      ++ [.recvPool, .wgDone]

/-- Number of times a trace takes a token out of `workerPool`. -/
def releases (t : List Event) : Nat := t.count .recvPool

/-- Number of times a trace calls `wg.Done()`. -/
def completions (t : List Event) : Nat := t.count .wgDone

/-- Number of durations a trace appends to `timeList`. -/
def records (t : List Event) : Nat := t.count .appendTime

/-! ## The admission loop -/

/-- What the `select` of the admission loop finds when the loop reaches a
pending message: whether the time-threshold timer has fired (its channel holds
a value), whether a signal is waiting in `sigChan`, and which of the two the
run-time picks when both are ready. -/
structure Boundary where
  timerFired : Bool
  signalPending : Bool
  pickTimer : Bool
  deriving DecidableEq, Repr

/-- The branch a `select` takes. -/
inductive Branch
  | goAhead
  | timerEnd
  | signalReturn
  deriving DecidableEq, Repr

/-- The `select` with the cases `<-timer.C`, `<-sigChan` and `default`
(main.go, lines 285-297 and 553-565): a ready case is taken, one of them when
both are ready, `default` only when none is. -/
def selectTimed (b : Boundary) : Branch :=
  if b.timerFired && b.signalPending then
    (if b.pickTimer then .timerEnd else .signalReturn)
  else if b.timerFired then .timerEnd
  else if b.signalPending then .signalReturn
  else .goAhead

/-- The `select` with the cases `<-sigChan` and `default` only (main.go, lines
396-405, 662-671 and 821-830): no timer is consulted. -/
def selectUntimed (b : Boundary) : Branch :=
  if b.signalPending then .signalReturn else .goAhead

/-- The `select` each command runs: Anonymous and Login create the timer when
`timeThreshold > 0` (lines 279-281 and 549-551), Replay has a single loop
without a timer (lines 820-830). -/
def selectOf (mode : Mode) (timeThreshold : Int) : Boundary → Branch :=
  match mode with
  | .Anonymous => if timeThreshold > 0 then selectTimed else selectUntimed
  | .Login => if timeThreshold > 0 then selectTimed else selectUntimed
  | .Replay => selectUntimed

/-- How the admission loop ended. -/
inductive LoopExit
  | exhausted
  | timerEnd
  | signalReturn
  deriving DecidableEq, Repr

/-- State of the admission loop when it ends: the counter `senderNum`, the
messages handed to a goroutine, in order, and the way the loop ended. -/
structure Admission where
  senderNum : Nat
  admitted : List GoBytes
  exit : LoopExit
  deriving DecidableEq, Repr

/-- The loop `for _, emlFilePath := range emlFilePathList { select ... }` from
its `i`-th iteration on, over the remaining paths: an exit branch leaves the
loop, `default` increments `senderNum` and starts the goroutine for the path. -/
def admitLoop (sel : Boundary → Branch) (obs : Nat → Boundary) :
    Nat → List GoBytes → Nat → List GoBytes → Admission
  | _, [], senderNum, admitted =>
    { senderNum := senderNum, admitted := admitted, exit := .exhausted }
  | i, emlFilePath :: rest, senderNum, admitted =>
    match sel (obs i) with
    | .timerEnd => { senderNum := senderNum, admitted := admitted, exit := .timerEnd }
    | .signalReturn => { senderNum := senderNum, admitted := admitted, exit := .signalReturn }
    | .goAhead => admitLoop sel obs (i + 1) rest (senderNum + 1) (admitted ++ [emlFilePath])

/-- The admission loop of a command over `emlFilePathList`, with `senderNum := 0`
(lines 256, 529 and 798). -/
def admission (mode : Mode) (timeThreshold : Int) (emlFilePathList : List GoBytes)
    (obs : Nat → Boundary) : Admission :=
  admitLoop (selectOf mode timeThreshold) obs 0 emlFilePathList 0 []

/-! ## The pool, the wait group and the interleaving of units -/

/-- State of a run: `capacity` and `tokens` are `cap(workerPool)` and
`len(workerPool)`, `wg` is the counter of the wait group, `recorded` is
`len(timeList)`, `pending` holds the traces of the messages not yet admitted,
`units` the events each admitted goroutine has still to perform (admission
order), `halted` tells that the process has ended by `os.Exit` or a panic.
`loaded` holds, for the units that have read `timeList` for their append and
not yet written it back, the position of the unit and the length it read:
`timeList = append(timeList, duration)` is a read and a write of a variable
shared without synchronisation. -/
structure Sys where
  capacity : Nat
  tokens : Nat
  wg : Int
  recorded : Nat
  pending : List (List Event)
  units : List (List Event)
  halted : Bool
  loaded : List (Nat × Nat) := []
  deriving DecidableEq, Repr

/-- A step of the run: the main goroutine admits the next message, the `i`-th
admitted unit performs its next event, or the `i`-th unit, about to append
to `timeList`, reads the variable (the write follows with its next `unit` step,
after whatever the other goroutines do in between). -/
inductive Label
  | spawn
  | unit (i : Nat)
  | load (i : Nat)
  deriving DecidableEq, Repr

/-- The state after `wg.Add(len(emlFilePathList))` and
`workerPool := make(chan struct{}, maxThreatCount)` (lines 272-273, 535-536,
816-817). -/
def Sys.init (capacity : Nat) (programs : List (List Event)) : Sys :=
  { capacity := capacity, tokens := 0, wg := programs.length, recorded := 0,
    pending := programs, units := [], halted := false, loaded := [] }

/-- The effect of one event of the unit at position `i` whose remaining events
are `e :: es`. `<-workerPool` blocks (`none`) on an empty channel; `wg.Done()`
panics on a negative counter; the append writes back one more than the length
the unit read before, if it did (an append made in between by another unit is
then lost), and one more than the present length otherwise. -/
def Sys.fire (s : Sys) (i : Nat) (e : Event) (es : List Event) : Option Sys :=
  match e with
  | .recvPool =>
    if s.tokens = 0 then none
    else some { s with tokens := s.tokens - 1, units := s.units.set i es }
  | .wgDone =>
    some { s with wg := s.wg - 1, units := s.units.set i es,
                  halted := decide (s.wg - 1 < 0) }
  | .appendTime =>
    some { s with
      recorded :=
        (match s.loaded.find? (fun p => p.1 == i) with
          | some p => p.2 + 1
          | none => s.recorded + 1),
      loaded := s.loaded.filter (fun p => !(p.1 == i)),
      units := s.units.set i es }
  | .fatal => some { s with units := s.units.set i es, halted := true }
  | .crash => some { s with units := s.units.set i es, halted := true }
  | _ => some { s with units := s.units.set i es }

/-- One step; `none` when the step is not enabled: the process has ended,
nothing is pending, `workerPool <- struct{}{}` blocks on a full channel, the
unit does not exist or has finished, its receive blocks, or (for `load`) its
next event is not the append or it has read `timeList` already. -/
def Sys.step (s : Sys) (l : Label) : Option Sys :=
  if s.halted then none
  else
    match l with
    | .spawn =>
      match s.pending with
      | [] => none
      | p :: rest =>
        if s.tokens < s.capacity then
          some { s with tokens := s.tokens + 1, pending := rest, units := s.units ++ [p] }
        else none
    | .unit i =>
      match s.units.get? i with
      | none => none
      | some [] => none
      | some (e :: es) => s.fire i e es
    | .load i =>
      match s.units.get? i with
      | some (.appendTime :: _) =>
        if (s.loaded.find? (fun p => p.1 == i)).isNone then
          some { s with loaded := (i, s.recorded) :: s.loaded }
        else none
      | _ => none

/-- A sequence of steps. -/
def Sys.run (s : Sys) : List Label → Option Sys
  | [] => some s
  | l :: ls =>
    match s.step l with
    | none => none
    | some s1 => Sys.run s1 ls

/-- Number of units that have been admitted and have not finished. -/
def Sys.active (s : Sys) : Nat := s.units.countP (fun u => !u.isEmpty)

/-- The condition under which `wg.Wait()` after the loop returns (lines 392, 499,
658, 768, 855): every message was admitted and the counter is zero. -/
def Sys.joined (s : Sys) : Prop := s.pending = [] ∧ s.wg = 0 ∧ s.halted = false

instance (s : Sys) : Decidable s.joined := by
  unfold Sys.joined
  exact inferInstance

/-- The trace of an Anonymous unit that runs beside other units. The wrap check
(main.go, lines 348-350 and 455-457), the read `accountInfo[accountIndex]`
(lines 351 and 458) and the increment (lines 356 and 463) are separate
accesses to the shared `accountIndex` without synchronisation, so the read
finds a value `seen` that another goroutine may have written after the wrap
check: any value up to the length of the list. With `seen` in range the unit
goes on as the sequential unit does from the index `seen`; with `seen` out of
range the index expression panics, as it does on the empty list. -/
def anonymousUnitRacing (ctx : Context) (accountInfo : List Account) (seen : Nat)
    (o : Outcome) : List Event :=
  if seen < accountInfo.length then (anonymousUnit ctx accountInfo seen o).1
  else (anonymousUnit ctx [] seen o).1

/-- The traces of the Anonymous units of a run: one per message, from the
outcome of its calls and the value of `accountIndex` its read finds. -/
def anonymousPrograms (ctx : Context) (accountInfo : List Account)
    (attempts : List (Nat × Outcome)) : List (List Event) :=
  attempts.map (fun a => anonymousUnitRacing ctx accountInfo a.1 a.2)

/-- An Anonymous attempt reaches line 384: the message was read, `Dial`,
`NewClient` and `Data` succeeded, and, when an account file is configured, the
read of the account list found an index in range. -/
def completes (ctx : Context) (accountInfo : List Account) (a : Nat × Outcome) : Bool :=
  a.2.file.isSome && a.2.dial && a.2.newClient && a.2.data
    && (ctx.accountConfig == "" || decide (a.1 < accountInfo.length))

/-- An Anonymous attempt gets past the connection stage: the message was read
and `Dial` and `NewClient` succeeded. -/
def connects (a : Nat × Outcome) : Bool :=
  a.2.file.isSome && a.2.dial && a.2.newClient

/-! ## Sample inputs -/

/-- A configuration with the fixed sender `f`, the password `p`, no account
file, no time threshold and a pool of one slot. -/
def sampleContext : Context :=
  { fromAddr := [102], password := [112], accountConfig := "", timeThreshold := 0,
    sleep := 0, sleepUnit := "s", thread := 1 }

/-- An attempt on a readable message `m` in which every call succeeds. -/
def allOk : Outcome :=
  { file := some [109], dial := true, newClient := true, auth := true, mail := true,
    rcpt := true, data := true, write := true, close := true }

/-- An attempt whose connection cannot be opened. -/
def unreachable : Outcome := { allOk with dial := false }

/-- The object-store key `/eml/a`. -/
def samplePath : GoBytes := [47, 101, 109, 108, 47, 97]

/-! ## Invariants of a run -/

/-- Pool accounting of a run in which every unit releases once: the tokens in
the channel are the releases the admitted units have still to perform. -/
structure PoolInv (s : Sys) : Prop where
  tokens_eq : s.tokens = (s.units.map releases).sum
  tokens_le : s.tokens ≤ s.capacity
  pending_one : ∀ p ∈ s.pending, releases p = 1

/-- Accounting of the wait group and of `timeList` in a run whose units end
with their only `wg.Done()`: `total` is the number of appends in the traces of
the run. The length of `timeList`, and every length a unit has read for an
append of its own, stays below `total` by at least the appends still to come. -/
structure JoinInv (total : Nat) (s : Sys) : Prop where
  recorded_le :
    s.recorded + (s.units.map records).sum + (s.pending.map records).sum ≤ total
  loaded_le :
    ∀ p ∈ s.loaded, p.2 + (s.units.map records).sum + (s.pending.map records).sum ≤ total
  wg_eq :
    s.wg = (((s.units.map completions).sum + (s.pending.map completions).sum : Nat) : Int)
  ends_done :
    ∀ u, u ∈ s.units ∨ u ∈ s.pending → u = [] ∨ u.getLast? = some Event.wgDone

/-- Every append of the trace has a release after it. -/
def AppendsFirst : List Event → Prop
  | [] => True
  | e :: es => (e = Event.appendTime → Event.recvPool ∈ es) ∧ AppendsFirst es

/-- Accounting of `timeList` in a run with a pool of one slot whose units
append before they release: no append is lost, a unit that has read
`timeList` still has its append to do, and the length it read is the present
one. -/
structure SerialInv (total : Nat) (s : Sys) : Prop where
  one_slot : s.capacity = 1
  recorded_eq :
    s.recorded + (s.units.map records).sum + (s.pending.map records).sum = total
  loaded_eq : ∀ p ∈ s.loaded, p.2 = s.recorded
  loaded_waiting : ∀ p ∈ s.loaded, ∃ u, s.units.get? p.1 = some u ∧ 0 < records u
  ordered : ∀ u, u ∈ s.units ∨ u ∈ s.pending → AppendsFirst u

/-- The schedule that admits the messages one at a time and lets each unit run
its `k` events before the next admission. -/
def sequentialSchedule (n k : Nat) : List Label :=
  (List.range n).flatMap (fun i => Label.spawn :: List.replicate k (Label.unit i))

/-- Events that neither touch the pool or the wait group nor end the process. -/
def Event.quiet (e : Event) : Bool :=
  match e with
  | .recvPool => false
  | .wgDone => false
  | .fatal => false
  | .crash => false
  | _ => true

/-- The schedule that admits the programs one at a time, `k` being the number
of units admitted before, and lets each unit run to its end before the next
admission. -/
def scheduleOf : List (List Event) → Nat → List Label
  | [], _ => []
  | p :: rest, k => Label.spawn :: (List.replicate p.length (Label.unit k) ++ scheduleOf rest (k + 1))

/-- Anonymous units run one after the other, each finding the `accountIndex`
the one before left. -/
def anonymousSequential (ctx : Context) (accountInfo : List Account) :
    Nat → List Outcome → List (List Event)
  | _, [] => []
  | accountIndex, o :: rest =>
    (anonymousUnit ctx accountInfo accountIndex o).1
      :: anonymousSequential ctx accountInfo (anonymousUnit ctx accountInfo accountIndex o).2 rest

/-- The envelope senders a trace hands to `client.Mail`. -/
def sendersOf (trace : List Event) : List GoBytes :=
  trace.filterMap (fun e =>
    match e with
    | .mail sender _ => some sender
    | _ => none)

/-! ## Loading the accounts and choosing the sender -/

/-- The account list of a run (main.go, lines 261-269 and 539-547):
`accountInfo := []utils.Account{}`, replaced by the result of
`utils.ReadAccountConfig` when `accountConfig` is not the empty string; `file`
is what `os.ReadFile` returns for that path, `none` is a fatal exit. -/
def loadAccountInfo (ctx : Context) (file : Option GoBytes) : Option (List Account) :=
  if ctx.accountConfig ≠ "" then ReadAccountConfig file else some []

/-- The choice of the envelope sender in an Anonymous attempt (main.go, lines
346-361 and 454-468): with an account file configured, a draw from the list,
otherwise `context.String("from")`. The result is the index of the list that
was dereferenced, if any, the sender and `accountIndex` afterwards; `none` is
the index-out-of-range fault. -/
def senderDraw (ctx : Context) (accountInfo : List Account) (accountIndex : Nat) :
    Option (Option Nat × GoBytes × Nat) :=
  if ctx.accountConfig ≠ "" then
    match drawAccount accountInfo accountIndex with
    | none => none
    | some (idx, a, next) => some (some idx, a.Username, next)
  else some (none, ctx.fromAddr, accountIndex)

/-- The choice of the credential in a Login attempt (main.go, lines 572-581 and
678-687): `context.String("from")` and `context.String("password")`, replaced
by a draw from the list when an account file is configured. The result is the
index dereferenced, if any, the address, the password and `accountIndex`
afterwards; `none` is the index-out-of-range fault. -/
def credentialDraw (ctx : Context) (accountInfo : List Account) (accountIndex : Nat) :
    Option (Option Nat × GoBytes × GoBytes × Nat) :=
  if ctx.accountConfig ≠ "" then
    match drawAccount accountInfo accountIndex with
    | none => none
    | some (idx, a, next) => some (some idx, a.Username, a.Password, next)
  else some (none, ctx.fromAddr, ctx.password, accountIndex)

/-- The credentials a trace hands to `client.Auth`. -/
def credentialsOf (trace : List Event) : List (GoBytes × GoBytes) :=
  trace.filterMap (fun e =>
    match e with
    | .auth username password _ => some (username, password)
    | _ => none)

/-- The contents a trace hands to `writer.Write`. -/
def writtenBy (trace : List Event) : List GoBytes :=
  trace.filterMap (fun e =>
    match e with
    | .write content _ => some content
    | _ => none)

/-! ## The representation of strings and slices -/

/-- Memory: the byte stored at each address. -/
abbrev Memory := Nat → UInt8

/-- A Go string value: the address of its bytes and their number. -/
structure StringHeader where
  Data : Nat
  Len : Nat
  deriving DecidableEq, Repr

/-- A Go slice value: address, length and capacity. -/
structure SliceHeader where
  Data : Nat
  Len : Nat
  Cap : Nat
  deriving DecidableEq, Repr

/-- The bytes of a string value. -/
def stringBytes (mem : Memory) (s : StringHeader) : GoBytes :=
  (List.range s.Len).map (fun i => mem (s.Data + i))

/-- The bytes of a slice value. -/
def sliceBytes (mem : Memory) (b : SliceHeader) : GoBytes :=
  (List.range b.Len).map (fun i => mem (b.Data + i))

/-- `*(*[]byte)(unsafe.Pointer(&data))` (emlFile.go, line 43) on the values:
the slice header read at the address of the string header has its two words
as address and length, and as capacity the word `next` that follows them in
memory. -/
def castStringHeader (data : StringHeader) (next : Nat) : SliceHeader :=
  { Data := data.Data, Len := data.Len, Cap := next }

/-! ## Theorems -/

/-! ### The account draw: basic facts -/

/-- The draw with its local definition expanded. -/
theorem drawAccount_unfold (accountInfo : List Account) (accountIndex : Nat) :
    drawAccount accountInfo accountIndex
      = match accountInfo.get? (if accountIndex ≥ accountInfo.length then 0 else accountIndex) with
        | none => none
        | some a => some ((if accountIndex ≥ accountInfo.length then 0 else accountIndex), a,
            (if accountIndex ≥ accountInfo.length then 0 else accountIndex) + 1) := rfl

/-- A draw faults exactly on the empty account list. -/
theorem drawAccount_eq_none_iff (accountInfo : List Account) (accountIndex : Nat) :
    drawAccount accountInfo accountIndex = none ↔ accountInfo = [] := by
  rw [drawAccount_unfold]
  constructor
  · intro h
    by_contra hne
    have hpos : 0 < accountInfo.length := List.length_pos.mpr hne
    by_cases hge : accountIndex ≥ accountInfo.length
    · rw [if_pos hge, List.get?_eq_get hpos] at h
      simp at h
    · rw [if_neg hge, List.get?_eq_get (by omega)] at h
      simp at h
  · intro h
    subst h
    simp

/-! ### C1: pool-slot and completion accounting of one unit -/

/-- An Anonymous unit, whatever the outcome of its calls (a panic included),
takes one token out of the pool and calls `wg.Done()` once. -/
theorem anonymousUnit_releases_once (ctx : Context) (accountInfo : List Account)
    (accountIndex : Nat) (o : Outcome) :
    releases (anonymousUnit ctx accountInfo accountIndex o).1 = 1 ∧
    completions (anonymousUnit ctx accountInfo accountIndex o).1 = 1 := by
  unfold anonymousUnit anonymousBody releases completions
  cases hf : ReadEml o.file with
  | none => simp
  | some eml =>
    cases hd : o.dial <;> cases hn : o.newClient <;> cases hdata : o.data <;>
      by_cases hc : ctx.accountConfig = "" <;>
      cases hdraw : drawAccount accountInfo accountIndex <;>
      simp [hc, List.count_cons, List.count_append]

/-- A Login unit whose connection fails returns from the deferred function
before any release: no token is taken out of the pool and `wg.Done()` is not
called. -/
theorem loginUnit_dial_failure_keeps_slot (timed : Bool) (ctx : Context)
    (accountInfo : List Account) (accountIndex : Nat) (o : Outcome)
    (hdial : o.dial = false) :
    releases (loginUnit timed ctx accountInfo accountIndex o).1 = 0 ∧
    completions (loginUnit timed ctx accountInfo accountIndex o).1 = 0 := by
  unfold loginUnit releases completions
  cases timed <;> by_cases hc : ctx.accountConfig = "" <;>
    cases hdraw : drawAccount accountInfo accountIndex <;>
    cases hfile : ReadEml o.file <;>
    simp [hc, hdial, List.count_cons]

/-- A Login attempt whose calls all succeed except the write releases the pool
slot twice and calls `wg.Done()` twice. -/
theorem loginUnit_write_failure_releases_twice (timed : Bool) (ctx : Context)
    (accountInfo : List Account) (accountIndex : Nat) (o : Outcome)
    (hacc : ctx.accountConfig = "" ∨ accountInfo ≠ [])
    (hfile : o.file.isSome = true) (hdial : o.dial = true) (hclient : o.newClient = true)
    (hauth : o.auth = true) (hmail : o.mail = true) (hrcpt : o.rcpt = true)
    (hdata : o.data = true) (hwrite : o.write = false) :
    releases (loginUnit timed ctx accountInfo accountIndex o).1 = 2 ∧
    completions (loginUnit timed ctx accountInfo accountIndex o).1 = 2 := by
  obtain ⟨content, hcontent⟩ := Option.isSome_iff_exists.mp hfile
  unfold loginUnit releases completions
  by_cases hc : ctx.accountConfig = ""
  · cases timed <;>
      simp [hc, hcontent, hdial, hclient, hauth, hmail, hrcpt, hdata, hwrite, ReadEml,
        List.count_cons, List.count_append]
  · have hne : accountInfo ≠ [] := hacc.resolve_left hc
    cases hdraw : drawAccount accountInfo accountIndex with
    | none => exact absurd ((drawAccount_eq_none_iff _ _).mp hdraw) hne
    | some d =>
      cases timed <;>
        simp [hc, hcontent, hdial, hclient, hauth, hmail, hrcpt, hdata, hwrite, ReadEml,
          List.count_cons, List.count_append]

/-- A Replay unit releases twice and calls `wg.Done()` twice when `SendMail`
fails, once when it succeeds, and never when the fetch panics. -/
theorem replayUnit_release_count (emlFilePath object : GoBytes) (sendOk : Bool) :
    releases (replayUnit emlFilePath object sendOk)
      = (if emlFilePath.length < 5 then 0 else if sendOk then 1 else 2) ∧
    completions (replayUnit emlFilePath object sendOk)
      = (if emlFilePath.length < 5 then 0 else if sendOk then 1 else 2) := by
  unfold replayUnit GetEmlFileForMinio releases completions
  by_cases hlen : emlFilePath.length < 5 <;> cases sendOk <;>
    simp [hlen, List.count_cons]

/-- C1: a Login unit whose connection fails performs no release and no
`wg.Done()` (both variants); a Login unit whose write fails and a Replay unit
whose `SendMail` fails perform two of each. -/
theorem login_replay_release_counts :
    releases (loginUnit true sampleContext [] 0 unreachable).1 = 0 ∧
    completions (loginUnit true sampleContext [] 0 unreachable).1 = 0 ∧
    releases (loginUnit false sampleContext [] 0 unreachable).1 = 0 ∧
    completions (loginUnit false sampleContext [] 0 unreachable).1 = 0 ∧
    releases (loginUnit true sampleContext [] 0 { allOk with write := false }).1 = 2 ∧
    completions (loginUnit true sampleContext [] 0 { allOk with write := false }).1 = 2 ∧
    releases (loginUnit false sampleContext [] 0 { allOk with write := false }).1 = 2 ∧
    completions (loginUnit false sampleContext [] 0 { allOk with write := false }).1 = 2 ∧
    releases (replayUnit samplePath [109] false) = 2 ∧
    completions (replayUnit samplePath [109] false) = 2 := by
  decide

/-! ### Interleaved runs -/

/-- Replacing one unit changes a sum over the units by the difference of the two terms. -/
theorem sum_map_set (f : List Event → Nat) (units : List (List Event)) :
    ∀ (i : Nat) (u v : List Event), units.get? i = some u →
      ((units.set i v).map f).sum + f u = (units.map f).sum + f v := by
  induction units with
  | nil =>
    intro i u v h
    simp at h
  | cons x xs ih =>
    intro i u v h
    cases i with
    | zero =>
      simp at h
      subst h
      simp
      omega
    | succ i =>
      rw [List.get?_cons_succ] at h
      have := ih i u v h
      simp only [List.set_cons_succ, List.map_cons, List.sum_cons]
      omega

/-- What one event of a unit changes in the state. -/
theorem Sys.fire_effect (s s1 : Sys) (i : Nat) (e : Event) (es : List Event)
    (h : s.fire i e es = some s1) :
    s1.units = s.units.set i es ∧ s1.pending = s.pending ∧ s1.capacity = s.capacity ∧
    s1.tokens + releases [e] = s.tokens ∧ s1.wg + (completions [e] : Int) = s.wg ∧
    (e ≠ Event.appendTime →
      s1.recorded = s.recorded ∧ s1.loaded = s.loaded ∧ records [e] = 0) ∧
    (e = Event.appendTime →
      records [e] = 1 ∧ s1.loaded = s.loaded.filter (fun p => !(p.1 == i)) ∧
      ((∃ p ∈ s.loaded, p.1 = i ∧ s1.recorded = p.2 + 1) ∨
        s1.recorded = s.recorded + 1)) := by
  cases e <;> simp only [Sys.fire] at h
  case recvPool =>
    split at h
    · simp at h
    · injection h with h
      subst h
      simp [releases, completions, records]
      omega
  case appendTime =>
    injection h with h
    subst h
    refine ⟨rfl, rfl, rfl, by simp [releases], by simp [completions], by simp, ?_⟩
    intro _
    refine ⟨by simp [records], rfl, ?_⟩
    cases hfind : s.loaded.find? (fun p => p.1 == i) with
    | none => right; rfl
    | some p =>
      left
      refine ⟨p, List.mem_of_find?_eq_some hfind, ?_, rfl⟩
      have := List.find?_some hfind
      simpa using this
  all_goals
    injection h with h
    subst h
    simp [releases, completions, records]

/-- The three kinds of step. -/
theorem Sys.step_cases (s s1 : Sys) (l : Label) (h : s.step l = some s1) :
    (∃ p rest, s.pending = p :: rest ∧ s.tokens < s.capacity ∧
      s1 = { s with tokens := s.tokens + 1, pending := rest, units := s.units ++ [p] }) ∨
    (∃ i e es, s.units.get? i = some (e :: es) ∧ s.fire i e es = some s1) ∨
    (∃ i es, s.units.get? i = some (Event.appendTime :: es) ∧
      s1 = { s with loaded := (i, s.recorded) :: s.loaded }) := by
  unfold Sys.step at h
  split at h
  · simp at h
  · cases l with
    | spawn =>
      left
      simp only at h
      split at h
      · simp at h
      · rename_i p rest hp
        split at h
        · rename_i hlt
          injection h with h
          exact ⟨p, rest, hp, hlt, h.symm⟩
        · simp at h
    | unit i =>
      right
      left
      simp only at h
      split at h
      · simp at h
      · simp at h
      · rename_i e es hu
        exact ⟨i, e, es, hu, h⟩
    | load i =>
      right
      right
      simp only at h
      split at h
      · rename_i es hu
        split at h
        · injection h with h
          exact ⟨i, es, hu, h.symm⟩
        · simp at h
      · simp at h

/-- Releases of a trace, by its first event. -/
theorem releases_cons (e : Event) (es : List Event) :
    releases (e :: es) = releases es + releases [e] := by
  simp [releases, List.count_cons]

/-- Completions of a trace, by its first event. -/
theorem completions_cons (e : Event) (es : List Event) :
    completions (e :: es) = completions es + completions [e] := by
  simp [completions, List.count_cons]

/-- Records of a trace, by its first event. -/
theorem records_cons (e : Event) (es : List Event) :
    records (e :: es) = records es + records [e] := by
  simp [records, List.count_cons]

/-- A step keeps the pool accounting. -/
theorem poolInv_step (s s1 : Sys) (l : Label) (hinv : PoolInv s) (h : s.step l = some s1) :
    PoolInv s1 := by
  rcases Sys.step_cases s s1 l h with
    ⟨p, rest, hp, hlt, rfl⟩ | ⟨i, e, es, hu, hf⟩ | ⟨i, es, -, rfl⟩
  rotate_left
  · obtain ⟨hunits, hpend, hcap, htok, -, -, -⟩ := Sys.fire_effect s s1 i e es hf
    have hsum := sum_map_set releases s.units i (e :: es) es hu
    have hcons := releases_cons e es
    have htk := hinv.tokens_eq
    have hle := hinv.tokens_le
    refine ⟨?_, ?_, ?_⟩
    · rw [hunits]
      omega
    · rw [hcap]
      omega
    · rw [hpend]
      exact hinv.pending_one
  · exact ⟨hinv.tokens_eq, hinv.tokens_le, hinv.pending_one⟩
  · refine ⟨?_, ?_, ?_⟩
    · have h1 := hinv.pending_one p (by simp [hp])
      simp [hinv.tokens_eq, h1]
    · simpa using hlt
    · intro q hq
      exact hinv.pending_one q (by simp [hp, hq])

/-- Every run keeps the pool accounting. -/
theorem poolInv_run (labels : List Label) :
    ∀ (s s1 : Sys), PoolInv s → s.run labels = some s1 → PoolInv s1 := by
  induction labels with
  | nil =>
    intro s s1 hinv h
    simp [Sys.run] at h
    subst h
    exact hinv
  | cons l ls ih =>
    intro s s1 hinv h
    simp only [Sys.run] at h
    split at h
    · simp at h
    · rename_i s2 hs2
      exact ih s2 s1 (poolInv_step s s2 l hinv hs2) h

/-- The units that have a release left are at most the releases left. -/
theorem holding_le_sum (units : List (List Event)) :
    units.countP (fun u => decide (0 < releases u)) ≤ (units.map releases).sum := by
  induction units with
  | nil => simp
  | cons u us ih =>
    by_cases h : 0 < releases u
    · simp only [List.countP_cons, List.map_cons, List.sum_cons, h, decide_True, if_true]
      omega
    · simp only [List.countP_cons, List.map_cons, List.sum_cons, h, decide_False]
      simp
      omega

/-- An Anonymous unit that runs beside others, whatever its read of the shared
index finds and whatever the outcome of its calls, takes one token out of the
pool and calls `wg.Done()` once. -/
theorem anonymousUnitRacing_releases_once (ctx : Context) (accountInfo : List Account)
    (seen : Nat) (o : Outcome) :
    releases (anonymousUnitRacing ctx accountInfo seen o) = 1 ∧
    completions (anonymousUnitRacing ctx accountInfo seen o) = 1 := by
  unfold anonymousUnitRacing
  split
  · exact anonymousUnit_releases_once ctx accountInfo seen o
  · exact anonymousUnit_releases_once ctx [] seen o

/-- A run does not change the capacity of the pool. -/
theorem Sys.run_capacity (labels : List Label) :
    ∀ (s s1 : Sys), s.run labels = some s1 → s1.capacity = s.capacity := by
  induction labels with
  | nil =>
    intro t t1 h
    simp [Sys.run] at h
    rw [h]
  | cons l ls ih =>
    intro t t1 h
    simp only [Sys.run] at h
    split at h
    · simp at h
    · rename_i t2 ht2
      rw [ih t2 t1 h]
      rcases Sys.step_cases t t2 l ht2 with
        ⟨p, rest, -, -, rfl⟩ | ⟨i, e, es, -, hf⟩ | ⟨i, es, -, rfl⟩
      · rfl
      · exact (Sys.fire_effect t t2 i e es hf).2.2.1
      · rfl

/-- The pool accounting holds at the start of a run of Anonymous mode. -/
theorem poolInv_init_anonymous (ctx : Context) (accountInfo : List Account) (capacity : Nat)
    (attempts : List (Nat × Outcome)) :
    PoolInv (Sys.init capacity (anonymousPrograms ctx accountInfo attempts)) := by
  refine ⟨by simp [Sys.init], by simp [Sys.init], ?_⟩
  intro p hp
  simp only [Sys.init, anonymousPrograms, List.mem_map] at hp
  obtain ⟨a, -, rfl⟩ := hp
  exact (anonymousUnitRacing_releases_once ctx accountInfo a.1 a.2).1

/-- Anonymous mode keeps the pool bound: in every state a run can reach, for
every pool size and every outcome of the attempts, the units that have been
admitted and have not yet given their slot back are at most `capacity`. -/
theorem anonymous_pool_bound (ctx : Context) (accountInfo : List Account) (capacity : Nat)
    (attempts : List (Nat × Outcome)) (labels : List Label) (s : Sys)
    (hrun : (Sys.init capacity (anonymousPrograms ctx accountInfo attempts)).run labels
      = some s) :
    s.units.countP (fun u => decide (0 < releases u)) ≤ capacity ∧ s.capacity = capacity := by
  have hinv := poolInv_run labels _ s
    (poolInv_init_anonymous ctx accountInfo capacity attempts) hrun
  have hc := Sys.run_capacity labels _ s hrun
  have hc2 : s.capacity = capacity := by simpa [Sys.init] using hc
  refine ⟨?_, hc2⟩
  have h1 := holding_le_sum s.units
  have h2 := hinv.tokens_eq
  have h3 := hinv.tokens_le
  omega

/-- A trace that ends with `wg.Done()` still does after its first event. -/
theorem getLast?_tail_wgDone (e : Event) (es : List Event)
    (h : (e :: es) = [] ∨ (e :: es).getLast? = some Event.wgDone) :
    es = [] ∨ es.getLast? = some Event.wgDone := by
  cases es with
  | nil => left; rfl
  | cons x xs =>
    right
    rcases h with h | h
    · simp at h
    · simpa using h

/-- A trace that ends with `wg.Done()` has a completion left. -/
theorem completions_pos_of_getLast (u : List Event) (h : u.getLast? = some Event.wgDone) :
    0 < completions u := by
  unfold completions
  apply List.count_pos_iff.mpr
  exact List.mem_of_getLast?_eq_some h

/-- A step keeps the accounting of the wait group and of `timeList`. -/
theorem joinInv_step (total : Nat) (s s1 : Sys) (l : Label) (hinv : JoinInv total s)
    (h : s.step l = some s1) : JoinInv total s1 := by
  have hrec := hinv.recorded_le
  have hld := hinv.loaded_le
  have hwg := hinv.wg_eq
  rcases Sys.step_cases s s1 l h with
    ⟨p, rest, hp, hlt, rfl⟩ | ⟨i, e, es, hu, hf⟩ | ⟨i, es, hu, rfl⟩
  · rw [hp] at hrec hld hwg
    simp only [List.map_cons, List.sum_cons] at hrec hld hwg
    refine ⟨?_, ?_, ?_, ?_⟩
    · simp only [List.map_append, List.sum_append, List.map_cons, List.map_nil, List.sum_cons,
        List.sum_nil]
      omega
    · intro q hq
      have := hld q hq
      simp only [List.map_append, List.sum_append, List.map_cons, List.map_nil, List.sum_cons,
        List.sum_nil]
      omega
    · simp only [List.map_append, List.sum_append, List.map_cons, List.map_nil, List.sum_cons,
        List.sum_nil]
      rw [hwg]
      push_cast
      ring
    · intro u hu
      apply hinv.ends_done u
      simp only [List.mem_append, List.mem_singleton] at hu
      rcases hu with (hu | hu) | hu
      · exact Or.inl hu
      · right
        rw [hp, hu]
        exact List.mem_cons_self _ _
      · right
        rw [hp]
        exact List.mem_cons_of_mem _ hu
  · obtain ⟨hunits, hpend, -, -, hwg1, hother, happend⟩ := Sys.fire_effect s s1 i e es hf
    have hsumr := sum_map_set records s.units i (e :: es) es hu
    have hsumc := sum_map_set completions s.units i (e :: es) es hu
    have hconsr := records_cons e es
    have hconsc := completions_cons e es
    refine ⟨?_, ?_, ?_, ?_⟩
    · rw [hunits, hpend]
      by_cases he : e = Event.appendTime
      · obtain ⟨hone, -, hnew⟩ := happend he
        rcases hnew with ⟨p, hp, -, hval⟩ | hval
        · have := hld p hp
          omega
        · omega
      · obtain ⟨hsame, -, hzero⟩ := hother he
        omega
    · intro q hq
      rw [hunits, hpend]
      by_cases he : e = Event.appendTime
      · obtain ⟨hone, hfilter, -⟩ := happend he
        rw [hfilter] at hq
        have := hld q (List.mem_of_mem_filter hq)
        omega
      · obtain ⟨-, hsame, hzero⟩ := hother he
        rw [hsame] at hq
        have := hld q hq
        omega
    · rw [hunits, hpend]
      omega
    · intro u hmem
      rw [hunits, hpend] at hmem
      rcases hmem with hmem | hmem
      · rcases List.mem_or_eq_of_mem_set hmem with hmem | rfl
        · exact hinv.ends_done u (Or.inl hmem)
        · apply getLast?_tail_wgDone e
          exact hinv.ends_done (e :: u) (Or.inl (List.get?_mem hu))
      · exact hinv.ends_done u (Or.inr hmem)
  · refine ⟨hrec, ?_, hwg, hinv.ends_done⟩
    intro q hq
    rcases List.mem_cons.mp hq with rfl | hq
    · exact hrec
    · exact hld q hq

/-- Every run keeps the accounting of the wait group and of `timeList`. -/
theorem joinInv_run (total : Nat) (labels : List Label) :
    ∀ (s s1 : Sys), JoinInv total s → s.run labels = some s1 → JoinInv total s1 := by
  induction labels with
  | nil =>
    intro s s1 hinv h
    simp [Sys.run] at h
    subst h
    exact hinv
  | cons l ls ih =>
    intro s s1 hinv h
    simp only [Sys.run] at h
    split at h
    · simp at h
    · rename_i s2 hs2
      exact ih s2 s1 (joinInv_step total s s2 l hinv hs2) h

/-- When the wait group lets the run join, every unit has finished and nothing
is left to append. -/
theorem joinInv_joined (total : Nat) (s : Sys) (hinv : JoinInv total s) (hj : s.joined) :
    (s.units.map records).sum = 0 ∧ (s.pending.map records).sum = 0 := by
  obtain ⟨hpend, hwg, -⟩ := hj
  have hw := hinv.wg_eq
  rw [hpend] at hw
  simp only [List.map_nil, List.sum_nil, Nat.add_zero] at hw
  rw [hwg] at hw
  have hsum : (s.units.map completions).sum = 0 := by exact_mod_cast hw.symm
  have hall : ∀ u ∈ s.units, records u = 0 := by
    intro u hu
    have hc : completions u = 0 := by
      have := List.sum_eq_zero_iff.mp hsum (completions u) (List.mem_map_of_mem _ hu)
      exact this
    rcases hinv.ends_done u (Or.inl hu) with h | h
    · rw [h]
      rfl
    · have := completions_pos_of_getLast u h
      omega
  refine ⟨?_, by simp [hpend]⟩
  apply List.sum_eq_zero_iff.mpr
  intro x hx
  obtain ⟨u, hu, rfl⟩ := List.mem_map.mp hx
  exact hall u hu

/-! ### C2: the pool bound -/

/-- C2: with a pool of one slot, a Replay unit whose `SendMail` fails takes a
second token out of the pool, the one of the unit admitted after it, and a
third unit is admitted: two units that have not started are in flight. The same
happens in Login mode after a failed write. -/
theorem pool_overrun_after_double_release :
    ((Sys.init 1 [replayUnit samplePath [109] false, replayUnit samplePath [109] true,
          replayUnit samplePath [109] true]).run
        ([Label.spawn] ++ List.replicate 5 (Label.unit 0) ++ [Label.spawn]
          ++ List.replicate 2 (Label.unit 0) ++ [Label.spawn])).map
        (fun s => (s.capacity, s.active, s.units))
      = some (1, 2, [[], replayUnit samplePath [109] true, replayUnit samplePath [109] true]) ∧
    ((Sys.init 1 [(loginUnit true sampleContext [] 0 { allOk with write := false }).1,
          (loginUnit true sampleContext [] 0 allOk).1,
          (loginUnit true sampleContext [] 0 allOk).1]).run
        ([Label.spawn] ++ List.replicate 12 (Label.unit 0) ++ [Label.spawn]
          ++ List.replicate 4 (Label.unit 0) ++ [Label.spawn])).map
        (fun s => (s.capacity, s.active, s.units))
      = some (1, 2, [[], (loginUnit true sampleContext [] 0 allOk).1,
          (loginUnit true sampleContext [] 0 allOk).1]) := by
  decide

/-! ### A run of Anonymous mode can always join -/

/-- A run over two schedules is the run over the first followed by the run over the second. -/
theorem Sys.run_append (l1 l2 : List Label) :
    ∀ s : Sys, s.run (l1 ++ l2) = (s.run l1).bind (fun s1 => s1.run l2) := by
  induction l1 with
  | nil => intro s; simp [Sys.run]
  | cons l ls ih =>
    intro s
    simp only [List.cons_append, Sys.run]
    cases s.step l with
    | none => simp
    | some s1 => simpa using ih s1

/-- Writing back what a position holds changes nothing. -/
theorem set_of_get? (units : List (List Event)) :
    ∀ (k : Nat) (u : List Event), units.get? k = some u → units.set k u = units := by
  induction units with
  | nil => intro k u h; simp
  | cons x xs ih =>
    intro k u h
    cases k with
    | zero =>
      simp at h
      simp [h]
    | succ k =>
      rw [List.get?_cons_succ] at h
      simp [ih k u h]

/-- A position that exists holds what was written to it. -/
theorem get?_set_same (units : List (List Event)) :
    ∀ (k : Nat) (u v : List Event), units.get? k = some u → (units.set k v).get? k = some v := by
  induction units with
  | nil => intro k u v h; simp at h
  | cons x xs ih =>
    intro k u v h
    cases k with
    | zero => simp
    | succ k =>
      rw [List.get?_cons_succ] at h
      rw [List.set_cons_succ, List.get?_cons_succ]
      exact ih k u v h

/-- A quiet event only shortens its unit and, for an append, lengthens `timeList`. -/
theorem Sys.fire_quiet (s : Sys) (k : Nat) (e : Event) (es : List Event)
    (hq : e.quiet = true) (hl : s.loaded = []) :
    s.fire k e es
      = some { s with recorded := s.recorded + records [e], units := s.units.set k es } := by
  cases e
  case appendTime => simp [Sys.fire, hl, records]
  all_goals first | rfl | (simp [Event.quiet] at hq)

/-- The quiet events at the head of a unit run without waiting. -/
theorem Sys.run_quiet (k : Nat) (tail : List Event) (pre : List Event) :
    ∀ s : Sys, s.halted = false → s.loaded = [] → s.units.get? k = some (pre ++ tail) →
      (∀ e ∈ pre, e.quiet = true) →
      s.run (List.replicate pre.length (Label.unit k))
        = some { s with recorded := s.recorded + records pre, units := s.units.set k tail } := by
  induction pre with
  | nil =>
    intro s _ _ hget _
    have hset := set_of_get? s.units k tail (by simpa using hget)
    simp [Sys.run, records, hset]
  | cons e pre ih =>
    intro s hh hl hget hq
    have hqe : e.quiet = true := hq e (List.mem_cons_self _ _)
    have hqs : ∀ x ∈ pre, x.quiet = true := fun x hx => hq x (List.mem_cons_of_mem _ hx)
    have hstep : s.step (Label.unit k)
        = some { s with recorded := s.recorded + records [e],
                        units := s.units.set k (pre ++ tail) } := by
      unfold Sys.step
      rw [if_neg (by simp [hh])]
      simp only [hget]
      exact Sys.fire_quiet s k e (pre ++ tail) hqe hl
    have hget1 : (s.units.set k (pre ++ tail)).get? k = some (pre ++ tail) :=
      get?_set_same s.units k _ _ hget
    have h1 := ih { s with recorded := s.recorded + records [e],
                           units := s.units.set k (pre ++ tail) } hh hl hget1 hqs
    simp only [List.length_cons, List.replicate_succ, Sys.run, hstep]
    rw [h1]
    simp only [List.set_set]
    have hrec := records_cons e pre
    congr 2
    omega

/-- Writing at the position of the unit admitted last. -/
theorem set_last (us : List (List Event)) (p q : List Event) :
    (us ++ [p]).set us.length q = us ++ [q] := by
  induction us with
  | nil => rfl
  | cons u us ih => simp [ih]

/-- The unit admitted last is at position `units.length`. -/
theorem get?_last (us : List (List Event)) (p : List Event) :
    (us ++ [p]).get? us.length = some p := by
  induction us with
  | nil => rfl
  | cons u us ih => simp

/-- One unit taken through admission, its quiet events, its release and its
`wg.Done()`, from a state with an empty pool. -/
theorem Sys.run_unit (pre : List Event) (rest : List (List Event)) (s : Sys)
    (hh : s.halted = false) (hl : s.loaded = []) (htok : s.tokens = 0)
    (hcap : 0 < s.capacity) (hwg : 1 ≤ s.wg)
    (hpend : s.pending = (pre ++ [Event.recvPool, Event.wgDone]) :: rest)
    (hq : ∀ e ∈ pre, e.quiet = true) :
    s.run (Label.spawn ::
        List.replicate (pre ++ [Event.recvPool, Event.wgDone]).length (Label.unit s.units.length))
      = some { s with wg := s.wg - 1, recorded := s.recorded + records pre, pending := rest,
                      units := s.units ++ [[]] } := by
  have hspawn : s.step Label.spawn
      = some { s with tokens := s.tokens + 1, pending := rest,
                      units := s.units ++ [pre ++ [Event.recvPool, Event.wgDone]] } := by
    unfold Sys.step
    rw [if_neg (by simp [hh])]
    simp only [hpend]
    rw [if_pos (by omega)]
  have hlen : (pre ++ [Event.recvPool, Event.wgDone]).length = pre.length + 2 := by simp
  have hrep : List.replicate (pre.length + 2) (Label.unit s.units.length)
      = List.replicate pre.length (Label.unit s.units.length)
        ++ [Label.unit s.units.length, Label.unit s.units.length] := by
    rw [List.replicate_add]
    rfl
  have hquiet := Sys.run_quiet s.units.length [Event.recvPool, Event.wgDone] pre
    { s with tokens := s.tokens + 1, pending := rest,
             units := s.units ++ [pre ++ [Event.recvPool, Event.wgDone]] }
    hh hl (get?_last s.units _) hq
  simp only [Sys.run, hspawn, hlen, hrep]
  rw [Sys.run_append, hquiet]
  simp only [Option.some_bind, set_last]
  have hne : ¬ s.tokens + 1 = 0 := by omega
  simp [Sys.run, Sys.step, hh, get?_last, set_last, Sys.fire, hne, htok, hwg]

/-- The sequential schedule takes a run whose units end with their release and
their `wg.Done()` to a state in which the wait group lets the run join, with
every append of the traces in `timeList`. -/
theorem Sys.run_scheduleOf (programs : List (List Event)) :
    ∀ s : Sys, s.halted = false → s.loaded = [] → s.tokens = 0 → 0 < s.capacity →
      s.wg = (programs.length : Int) → s.pending = programs →
      (∀ p ∈ programs, ∃ pre, p = pre ++ [Event.recvPool, Event.wgDone] ∧
        ∀ e ∈ pre, e.quiet = true) →
      ∃ s1, s.run (scheduleOf programs s.units.length) = some s1 ∧ s1.joined ∧
        s1.recorded = s.recorded + (programs.map records).sum := by
  induction programs with
  | nil =>
    intro s hh _ _ _ hwg hpend _
    exact ⟨s, rfl, ⟨hpend, by simpa using hwg, hh⟩, by simp⟩
  | cons p rest ih =>
    intro s hh hl htok hcap hwg hpend hall
    obtain ⟨pre, rfl, hq⟩ := hall p (List.mem_cons_self _ _)
    have hwg1 : 1 ≤ s.wg := by
      rw [hwg]
      simp
    have hunit := Sys.run_unit pre rest s hh hl htok hcap hwg1 hpend hq
    have hnext := ih { s with wg := s.wg - 1, recorded := s.recorded + records pre,
                              pending := rest, units := s.units ++ [[]] }
      hh hl htok hcap (by simp [hwg]) rfl
      (fun q hq => hall q (List.mem_cons_of_mem _ hq))
    obtain ⟨s1, hrun, hj, hrec⟩ := hnext
    refine ⟨s1, ?_, hj, ?_⟩
    · have hsched : scheduleOf ((pre ++ [Event.recvPool, Event.wgDone]) :: rest) s.units.length
          = (Label.spawn :: List.replicate (pre ++ [Event.recvPool, Event.wgDone]).length
              (Label.unit s.units.length)) ++ scheduleOf rest (s.units.length + 1) := by
        simp [scheduleOf]
      rw [hsched, Sys.run_append, hunit]
      simpa using hrun
    · have hrp : records (pre ++ [Event.recvPool, Event.wgDone]) = records pre := by
        simp [records, List.count_append, List.count_cons]
      simp only [List.map_cons, List.sum_cons, hrp]
      simp only at hrec
      omega

/-- An Anonymous unit is a sequence of quiet events followed by its release
and its `wg.Done()`. -/
theorem anonymousUnit_shape (ctx : Context) (accountInfo : List Account)
    (accountIndex : Nat) (o : Outcome) :
    ∃ pre, (anonymousUnit ctx accountInfo accountIndex o).1
        = pre ++ [Event.recvPool, Event.wgDone] ∧ ∀ e ∈ pre, e.quiet = true := by
  refine ⟨(anonymousBody ctx accountInfo accountIndex o).events
      ++ (if (anonymousBody ctx accountInfo accountIndex o).panicked then [Event.recovered]
          else []), rfl, ?_⟩
  intro e he
  unfold anonymousBody at he
  cases hfile : ReadEml o.file <;>
    cases hd : o.dial <;> cases hn : o.newClient <;> cases hdata : o.data <;>
    by_cases hc : ctx.accountConfig = "" <;>
    cases hdraw : drawAccount accountInfo accountIndex <;>
    simp [hfile, hd, hn, hdata, hc, hdraw] at he <;>
    (try rcases he with rfl | rfl | rfl | rfl | rfl | rfl | rfl | rfl | rfl | rfl) <;>
    rfl

/-- An Anonymous unit that runs beside others has the same shape. -/
theorem anonymousUnitRacing_shape (ctx : Context) (accountInfo : List Account)
    (seen : Nat) (o : Outcome) :
    ∃ pre, anonymousUnitRacing ctx accountInfo seen o
        = pre ++ [Event.recvPool, Event.wgDone] ∧ ∀ e ∈ pre, e.quiet = true := by
  unfold anonymousUnitRacing
  split
  · exact anonymousUnit_shape ctx accountInfo seen o
  · exact anonymousUnit_shape ctx [] seen o

/-- In Anonymous mode, for every pool of at least one slot and every outcome of
the attempts, there is a schedule after which `wg.Wait()` returns, with every
append of the traces in `timeList`. -/
theorem anonymous_can_join (ctx : Context) (accountInfo : List Account) (capacity : Nat)
    (hcap : 1 ≤ capacity) (attempts : List (Nat × Outcome)) :
    ∃ labels s, (Sys.init capacity (anonymousPrograms ctx accountInfo attempts)).run labels
        = some s ∧ s.joined ∧
      s.recorded = ((anonymousPrograms ctx accountInfo attempts).map records).sum := by
  obtain ⟨s, hrun, hj, hrec⟩ := Sys.run_scheduleOf (anonymousPrograms ctx accountInfo attempts)
    (Sys.init capacity (anonymousPrograms ctx accountInfo attempts)) rfl rfl rfl hcap rfl rfl
    (by
      intro p hp
      simp only [anonymousPrograms, List.mem_map] at hp
      obtain ⟨a, -, rfl⟩ := hp
      exact anonymousUnitRacing_shape ctx accountInfo a.1 a.2)
  refine ⟨_, s, hrun, hj, ?_⟩
  simpa [Sys.init] using hrec

/-! ### C3: what `timeList` holds when the run joins -/

/-- An Anonymous unit run from an index appends one duration when the message
was read, `Dial`, `NewClient` and `Data` succeeded and the account list, when
one is configured, is not empty; otherwise it appends none. -/
theorem anonymousUnit_records (ctx : Context) (accountInfo : List Account)
    (accountIndex : Nat) (o : Outcome) :
    records (anonymousUnit ctx accountInfo accountIndex o).1
      = if (o.file.isSome && o.dial && o.newClient && o.data
            && (ctx.accountConfig == "" || !accountInfo.isEmpty)) = true then 1 else 0 := by
  unfold anonymousUnit anonymousBody records
  cases hfile : o.file with
  | none => simp [ReadEml, List.count_cons]
  | some content =>
    cases hdraw : drawAccount accountInfo accountIndex with
    | none =>
      have hnil := (drawAccount_eq_none_iff accountInfo accountIndex).mp hdraw
      cases hd : o.dial <;> cases hn : o.newClient <;> cases hdata : o.data <;>
        by_cases hc : ctx.accountConfig = "" <;>
        simp [ReadEml, hc, hnil, List.count_cons]
    | some d =>
      have hne : accountInfo ≠ [] := by
        intro hnil
        rw [(drawAccount_eq_none_iff accountInfo accountIndex).mpr hnil] at hdraw
        exact Option.noConfusion hdraw
      cases hd : o.dial <;> cases hn : o.newClient <;> cases hdata : o.data <;>
        by_cases hc : ctx.accountConfig = "" <;>
        simp [ReadEml, hc, hne, List.count_cons]

/-- An Anonymous unit that runs beside others appends one duration when the
attempt reaches line 384 and none otherwise. -/
theorem anonymousUnitRacing_records (ctx : Context) (accountInfo : List Account)
    (a : Nat × Outcome) :
    records (anonymousUnitRacing ctx accountInfo a.1 a.2)
      = if completes ctx accountInfo a then 1 else 0 := by
  obtain ⟨seen, o⟩ := a
  unfold anonymousUnitRacing completes
  by_cases hlt : seen < accountInfo.length
  · have hne : accountInfo ≠ [] := by
      intro hnil
      rw [hnil] at hlt
      simp at hlt
    rw [if_pos hlt, anonymousUnit_records]
    simp [hlt, hne]
  · rw [if_neg hlt, anonymousUnit_records]
    simp [hlt]

/-- The last event of an Anonymous unit is its `wg.Done()`. -/
theorem anonymousUnit_getLast (ctx : Context) (accountInfo : List Account)
    (accountIndex : Nat) (o : Outcome) :
    (anonymousUnit ctx accountInfo accountIndex o).1.getLast? = some Event.wgDone := by
  unfold anonymousUnit
  simp [List.getLast?_append]

/-- The durations the Anonymous units of a run append are as many as the attempts that reach line 384. -/
theorem sum_records_anonymous (ctx : Context) (accountInfo : List Account)
    (attempts : List (Nat × Outcome)) :
    ((anonymousPrograms ctx accountInfo attempts).map records).sum
      = attempts.countP (completes ctx accountInfo) := by
  induction attempts with
  | nil => simp [anonymousPrograms]
  | cons a rest ih =>
    have h := anonymousUnitRacing_records ctx accountInfo a
    simp only [anonymousPrograms, List.map_cons, List.sum_cons, List.countP_cons] at ih ⊢
    rw [ih, h]
    omega

/-- The Anonymous units of a run call `wg.Done()` as many times as there are messages. -/
theorem sum_completions_anonymous (ctx : Context) (accountInfo : List Account)
    (attempts : List (Nat × Outcome)) :
    ((anonymousPrograms ctx accountInfo attempts).map completions).sum = attempts.length := by
  induction attempts with
  | nil => simp [anonymousPrograms]
  | cons a rest ih =>
    have h := (anonymousUnitRacing_releases_once ctx accountInfo a.1 a.2).2
    simp only [anonymousPrograms, List.map_cons, List.sum_cons, List.length_cons] at ih ⊢
    rw [ih, h]
    omega

/-- The sequential unit is one of the behaviours of the unit that runs beside
others: the one whose read finds the index its own wrap check left. -/
theorem anonymousUnit_is_racing (ctx : Context) (accountInfo : List Account)
    (accountIndex : Nat) (o : Outcome) :
    (anonymousUnit ctx accountInfo accountIndex o).1
      = anonymousUnitRacing ctx accountInfo
          (if accountIndex ≥ accountInfo.length then 0 else accountIndex) o := by
  have hdraw : ∀ k, k ≥ accountInfo.length →
      drawAccount accountInfo k = drawAccount accountInfo 0 := by
    intro k hk
    rw [drawAccount_unfold, drawAccount_unfold, if_pos hk]
    simp
  unfold anonymousUnitRacing
  by_cases hge : accountIndex ≥ accountInfo.length
  · rw [if_pos hge]
    by_cases hpos : 0 < accountInfo.length
    · rw [if_pos hpos]
      unfold anonymousUnit anonymousBody
      rw [hdraw accountIndex hge]
      cases hfile : ReadEml o.file <;> cases hd : o.dial <;> cases hn : o.newClient <;>
        cases hdata : o.data <;> by_cases hc : ctx.accountConfig = "" <;>
        cases hdr : drawAccount accountInfo 0 <;> simp [hc]
    · rw [if_neg hpos]
      have hnil : accountInfo = [] := List.length_eq_zero.mp (by omega)
      subst hnil
      unfold anonymousUnit anonymousBody
      rw [(drawAccount_eq_none_iff [] accountIndex).mpr rfl,
        (drawAccount_eq_none_iff [] 0).mpr rfl]
      cases hfile : ReadEml o.file <;> cases hd : o.dial <;> cases hn : o.newClient <;>
        cases hdata : o.data <;> by_cases hc : ctx.accountConfig = "" <;> simp [hc]
  · rw [if_neg hge, if_pos (by omega)]

/-- An attempt that reaches line 384 got past the connection stage. -/
theorem completes_connects (ctx : Context) (accountInfo : List Account)
    (a : Nat × Outcome) (h : completes ctx accountInfo a = true) : connects a = true := by
  unfold completes at h
  unfold connects
  simp only [Bool.and_eq_true] at h ⊢
  exact ⟨⟨h.1.1.1.1, h.1.1.1.2⟩, h.1.1.2⟩

/-! ### A pool of one slot loses no append -/

/-- A trace whose appends come before a release has a release left while it
has an append left. -/
theorem appendsFirst_releases (u : List Event) (h : AppendsFirst u) (hrec : 0 < records u) :
    0 < releases u := by
  induction u with
  | nil => simp [records] at hrec
  | cons e es ih =>
    obtain ⟨hhead, htail⟩ := h
    rw [releases_cons]
    by_cases he : e = Event.appendTime
    · have hmem := hhead he
      have : 0 < releases es := List.count_pos_iff.mpr hmem
      omega
    · have hzero : records [e] = 0 := by
        cases e <;> first | rfl | exact absurd rfl he
      rw [records_cons, hzero] at hrec
      have := ih htail (by omega)
      omega

/-- A trace that ends with a release and a `wg.Done()` has its appends before
a release. -/
theorem appendsFirst_of_shape (pre : List Event) :
    AppendsFirst (pre ++ [Event.recvPool, Event.wgDone]) := by
  induction pre with
  | nil => simp [AppendsFirst]
  | cons e pre ih =>
    refine ⟨?_, ih⟩
    intro _
    simp

/-- A position that holds a unit holds it after an admission. -/
theorem get?_append_of_some (units : List (List Event)) (p u : List Event) :
    ∀ i, units.get? i = some u → (units ++ [p]).get? i = some u := by
  induction units with
  | nil => intro i h; simp at h
  | cons x xs ih =>
    intro i h
    cases i with
    | zero => simpa using h
    | succ i =>
      rw [List.get?_cons_succ] at h
      rw [List.cons_append, List.get?_cons_succ]
      exact ih i h

/-- Writing to a position leaves the others alone. -/
theorem get?_set_other (units : List (List Event)) (v : List Event) :
    ∀ i j, i ≠ j → (units.set i v).get? j = units.get? j := by
  induction units with
  | nil => intro i j _; simp
  | cons x xs ih =>
    intro i j hne
    cases i with
    | zero =>
      cases j with
      | zero => exact absurd rfl hne
      | succ j => simp
    | succ i =>
      cases j with
      | zero => simp
      | succ j =>
        rw [List.set_cons_succ, List.get?_cons_succ, List.get?_cons_succ]
        exact ih i j (by omega)

/-- A term of a sum is at most the sum. -/
theorem term_le_sum (f : List Event → Nat) (units : List (List Event)) :
    ∀ i u, units.get? i = some u → f u ≤ (units.map f).sum := by
  induction units with
  | nil => intro i u h; simp at h
  | cons x xs ih =>
    intro i u h
    cases i with
    | zero =>
      simp at h
      subst h
      simp
    | succ i =>
      rw [List.get?_cons_succ] at h
      have := ih i u h
      simp only [List.map_cons, List.sum_cons]
      omega

/-- Two terms of a sum at different positions are together at most the sum. -/
theorem two_terms_le_sum (f : List Event → Nat) (units : List (List Event)) :
    ∀ i j a b, i ≠ j → units.get? i = some a → units.get? j = some b →
      f a + f b ≤ (units.map f).sum := by
  induction units with
  | nil => intro i j a b _ h; simp at h
  | cons x xs ih =>
    intro i j a b hne hi hj
    simp only [List.map_cons, List.sum_cons]
    cases i with
    | zero =>
      cases j with
      | zero => exact absurd rfl hne
      | succ j =>
        simp at hi
        subst hi
        rw [List.get?_cons_succ] at hj
        have := term_le_sum f xs j b hj
        omega
    | succ i =>
      cases j with
      | zero =>
        simp at hj
        subst hj
        rw [List.get?_cons_succ] at hi
        have := term_le_sum f xs i a hi
        omega
      | succ j =>
        rw [List.get?_cons_succ] at hi hj
        have := ih i j a b (by omega) hi hj
        omega

/-- With a pool of one slot a step keeps the accounting in which no append is
lost. -/
theorem serialInv_step (total : Nat) (s s1 : Sys) (l : Label) (hpool : PoolInv s)
    (hinv : SerialInv total s) (h : s.step l = some s1) : SerialInv total s1 := by
  have hrec := hinv.recorded_eq
  have hleq := hinv.loaded_eq
  have hwait := hinv.loaded_waiting
  have hord := hinv.ordered
  rcases Sys.step_cases s s1 l h with
    ⟨p, rest, hp, hlt, rfl⟩ | ⟨i, e, es, hu, hf⟩ | ⟨i, es, hu, rfl⟩
  · rw [hp] at hrec
    simp only [List.map_cons, List.sum_cons] at hrec
    refine ⟨hinv.one_slot, ?_, hleq, ?_, ?_⟩
    · simp only [List.map_append, List.sum_append, List.map_cons, List.map_nil, List.sum_cons,
        List.sum_nil]
      omega
    · intro q hq
      obtain ⟨u, hget, hpos⟩ := hwait q hq
      exact ⟨u, get?_append_of_some s.units p u q.1 hget, hpos⟩
    · intro u hu
      apply hord u
      simp only [List.mem_append, List.mem_singleton] at hu
      rcases hu with (hu | hu) | hu
      · exact Or.inl hu
      · right
        rw [hp, hu]
        exact List.mem_cons_self _ _
      · right
        rw [hp]
        exact List.mem_cons_of_mem _ hu
  · obtain ⟨hunits, hpend, hcap, -, -, hother, happend⟩ := Sys.fire_effect s s1 i e es hf
    have hsumr := sum_map_set records s.units i (e :: es) es hu
    have hconsr := records_cons e es
    have hordi : AppendsFirst (e :: es) := hord (e :: es) (Or.inl (List.get?_mem hu))
    have hothers : e = Event.appendTime → ∀ q ∈ s.loaded, q.1 = i := by
      intro he q hq
      by_contra hne
      obtain ⟨u, hget, hpos⟩ := hwait q hq
      have hrelu := appendsFirst_releases u (hord u (Or.inl (List.get?_mem hget))) hpos
      have hreci : 0 < records (e :: es) := by
        rw [hconsr, (happend he).1]
        omega
      have hreli := appendsFirst_releases (e :: es) hordi hreci
      have hsum := two_terms_le_sum releases s.units q.1 i u (e :: es) hne hget hu
      have h1 := hpool.tokens_eq
      have h2 := hpool.tokens_le
      have h3 := hinv.one_slot
      omega
    refine ⟨by rw [hcap]; exact hinv.one_slot, ?_, ?_, ?_, ?_⟩
    · rw [hunits, hpend]
      by_cases he : e = Event.appendTime
      · obtain ⟨hone, -, hnew⟩ := happend he
        rcases hnew with ⟨p, hp, -, hval⟩ | hval
        · have := hleq p hp
          omega
        · omega
      · obtain ⟨hsame, -, hzero⟩ := hother he
        omega
    · intro q hq
      by_cases he : e = Event.appendTime
      · obtain ⟨-, hfilter, -⟩ := happend he
        rw [hfilter] at hq
        have hq1 := List.mem_of_mem_filter hq
        have hq2 := List.of_mem_filter hq
        have := hothers he q hq1
        simp [this] at hq2
      · obtain ⟨hsame, hsamel, -⟩ := hother he
        rw [hsamel] at hq
        rw [hsame]
        exact hleq q hq
    · intro q hq
      rw [hunits]
      by_cases he : e = Event.appendTime
      · obtain ⟨-, hfilter, -⟩ := happend he
        rw [hfilter] at hq
        have hq1 := List.mem_of_mem_filter hq
        have hq2 := List.of_mem_filter hq
        have := hothers he q hq1
        simp [this] at hq2
      · obtain ⟨-, hsamel, hzero⟩ := hother he
        rw [hsamel] at hq
        obtain ⟨u, hget, hpos⟩ := hwait q hq
        by_cases hqi : q.1 = i
        · rw [hqi] at hget ⊢
          rw [hu] at hget
          injection hget with hget
          subst hget
          refine ⟨es, get?_set_same s.units i _ _ hu, ?_⟩
          omega
        · refine ⟨u, ?_, hpos⟩
          rw [get?_set_other s.units es i q.1 (fun h => hqi h.symm)]
          exact hget
    · intro u hmem
      rw [hunits, hpend] at hmem
      rcases hmem with hmem | hmem
      · rcases List.mem_or_eq_of_mem_set hmem with hmem | rfl
        · exact hord u (Or.inl hmem)
        · exact hordi.2
      · exact hord u (Or.inr hmem)
  · refine ⟨hinv.one_slot, hrec, ?_, ?_, hord⟩
    · intro q hq
      rcases List.mem_cons.mp hq with rfl | hq
      · rfl
      · exact hleq q hq
    · intro q hq
      rcases List.mem_cons.mp hq with rfl | hq
      · refine ⟨Event.appendTime :: es, hu, ?_⟩
        rw [records_cons]
        simp [records]
      · exact hwait q hq

/-- With a pool of one slot every run keeps the pool accounting and the
accounting in which no append is lost. -/
theorem serialInv_run (total : Nat) (labels : List Label) :
    ∀ (s s1 : Sys), PoolInv s → SerialInv total s → s.run labels = some s1 →
      SerialInv total s1 := by
  induction labels with
  | nil =>
    intro s s1 _ hinv h
    simp [Sys.run] at h
    subst h
    exact hinv
  | cons l ls ih =>
    intro s s1 hpool hinv h
    simp only [Sys.run] at h
    split at h
    · simp at h
    · rename_i s2 hs2
      exact ih s2 s1 (poolInv_step s s2 l hpool hs2) (serialInv_step total s s2 l hpool hinv hs2) h

/-! ### C3: the claim theorem -/

/-- The accounting of the wait group and of `timeList` holds at the start of a
run of Anonymous mode. -/
theorem joinInv_init_anonymous (ctx : Context) (accountInfo : List Account) (capacity : Nat)
    (attempts : List (Nat × Outcome)) :
    JoinInv (attempts.countP (completes ctx accountInfo))
      (Sys.init capacity (anonymousPrograms ctx accountInfo attempts)) := by
  refine ⟨?_, ?_, ?_, ?_⟩
  · simp [Sys.init, sum_records_anonymous]
  · intro p hp
    simp [Sys.init] at hp
  · have hlen : (anonymousPrograms ctx accountInfo attempts).length = attempts.length := by
      simp [anonymousPrograms]
    simp only [Sys.init, List.map_nil, List.sum_nil, Nat.zero_add]
    rw [sum_completions_anonymous, hlen]
  · intro u hu
    right
    simp only [Sys.init, List.not_mem_nil, false_or, anonymousPrograms, List.mem_map] at hu
    obtain ⟨a, -, rfl⟩ := hu
    unfold anonymousUnitRacing
    split
    · exact anonymousUnit_getLast ctx accountInfo a.1 a.2
    · exact anonymousUnit_getLast ctx [] a.1 a.2

/-- The accounting in which no append is lost holds at the start of a run of
Anonymous mode with a pool of one slot. -/
theorem serialInv_init_anonymous (ctx : Context) (accountInfo : List Account)
    (attempts : List (Nat × Outcome)) :
    SerialInv (attempts.countP (completes ctx accountInfo))
      (Sys.init 1 (anonymousPrograms ctx accountInfo attempts)) := by
  refine ⟨rfl, ?_, ?_, ?_, ?_⟩
  · simp [Sys.init, sum_records_anonymous]
  · intro p hp
    simp [Sys.init] at hp
  · intro p hp
    simp [Sys.init] at hp
  · intro u hu
    simp only [Sys.init, List.not_mem_nil, false_or, anonymousPrograms, List.mem_map] at hu
    obtain ⟨a, -, rfl⟩ := hu
    obtain ⟨pre, hshape, -⟩ := anonymousUnitRacing_shape ctx accountInfo a.1 a.2
    rw [hshape]
    exact appendsFirst_of_shape pre

/-- C3 (amended): in a run of Anonymous mode over `attempts` with a pool of at
least one slot, whatever the outcomes, the interleaving and the values the
units find in the shared index, and with appends to `timeList` that can
overwrite each other, the number of recorded durations never exceeds the
number of attempts that reached the end of the unit, which never exceeds the
number of attempts that got past the connection stage, which never exceeds
the number of messages. With a pool of one slot, when the wait group lets the
run join, the number of recorded durations is the number of attempts that
reached the end of the unit, and the number of messages when all did. For
every pool some schedule lets the run join with that number recorded. When
every attempt fails at `Dial`, nothing is recorded. -/
theorem anonymous_recorded_count (ctx : Context) (accountInfo : List Account)
    (capacity : Nat) (hcap : 1 ≤ capacity) (attempts : List (Nat × Outcome))
    (labels : List Label) (s : Sys)
    (hrun : (Sys.init capacity (anonymousPrograms ctx accountInfo attempts)).run labels
      = some s) :
    s.recorded ≤ attempts.countP (completes ctx accountInfo) ∧
    attempts.countP (completes ctx accountInfo) ≤ attempts.countP connects ∧
    attempts.countP connects ≤ attempts.length ∧
    (capacity = 1 → s.joined → s.recorded = attempts.countP (completes ctx accountInfo)) ∧
    (capacity = 1 → s.joined → (∀ a ∈ attempts, completes ctx accountInfo a = true) →
      s.recorded = attempts.length) ∧
    (∃ labels1 s1,
      (Sys.init capacity (anonymousPrograms ctx accountInfo attempts)).run labels1 = some s1 ∧
      s1.joined ∧ s1.recorded = attempts.countP (completes ctx accountInfo)) ∧
    ((∀ a ∈ attempts, a.2.dial = false) → s.recorded = 0) := by
  have hinv := joinInv_run _ labels _ s
    (joinInv_init_anonymous ctx accountInfo capacity attempts) hrun
  have hserial : capacity = 1 → s.joined →
      s.recorded = attempts.countP (completes ctx accountInfo) := by
    intro hone hj
    subst hone
    have hs := serialInv_run _ labels _ s (poolInv_init_anonymous ctx accountInfo 1 attempts)
      (serialInv_init_anonymous ctx accountInfo attempts) hrun
    obtain ⟨hu, hp⟩ := joinInv_joined _ s hinv hj
    have := hs.recorded_eq
    omega
  have hle : s.recorded ≤ attempts.countP (completes ctx accountInfo) := by
    have := hinv.recorded_le
    omega
  have hmono : attempts.countP (completes ctx accountInfo) ≤ attempts.countP connects :=
    List.countP_mono_left (fun a _ h => completes_connects ctx accountInfo a h)
  refine ⟨hle, hmono, List.countP_le_length _, hserial, ?_, ?_, ?_⟩
  · intro hone hj hall
    rw [hserial hone hj]
    exact List.countP_eq_length.mpr hall
  · obtain ⟨labels1, s1, hrun1, hj1, hrec1⟩ :=
      anonymous_can_join ctx accountInfo capacity hcap attempts
    exact ⟨labels1, s1, hrun1, hj1, by rw [hrec1, sum_records_anonymous]⟩
  · intro hall
    have hzero : attempts.countP connects = 0 := by
      apply List.countP_eq_zero.mpr
      intro a ha
      simp [connects, hall a ha]
    omega

/-- Witness of C3 (amended): two messages, pool of one slot, the first attempt
succeeds and the second cannot connect; the run joins with one duration. -/
theorem anonymous_recorded_count_witness :
    (Sys.init 1 (anonymousPrograms sampleContext [] [(0, allOk), (0, unreachable)])).run
        (sequentialSchedule 1 11 ++ [Label.spawn, Label.unit 1, Label.unit 1, Label.unit 1])
      = some { capacity := 1, tokens := 0, wg := 0, recorded := 1, pending := [],
               units := [[], []], halted := false, loaded := [] } ∧
    (1 : Nat) = [(0, allOk), (0, unreachable)].countP (completes sampleContext []) :=
  ⟨by decide,
   (anonymous_recorded_count sampleContext [] 1 (by decide) [(0, allOk), (0, unreachable)]
      (sequentialSchedule 1 11 ++ [Label.spawn, Label.unit 1, Label.unit 1, Label.unit 1])
      { capacity := 1, tokens := 0, wg := 0, recorded := 1, pending := [],
        units := [[], []], halted := false, loaded := [] }
      (by decide)).2.2.2.1 rfl (by decide)⟩

/-- With a pool of two slots an append can be lost: two attempts reach the end
of the unit, both read `timeList` before either writes it back, and the run
joins with one duration recorded. With an account file of one account, a unit
whose read finds the index 1, left there by another unit, records nothing. -/
theorem two_slots_can_lose_an_append :
    (∃ s, (Sys.init 2 (anonymousPrograms sampleContext [] [(0, allOk), (0, allOk)])).run
          ([Label.spawn, Label.spawn] ++ List.replicate 7 (Label.unit 0)
            ++ List.replicate 7 (Label.unit 1) ++ [Label.load 0, Label.load 1]
            ++ List.replicate 4 (Label.unit 0) ++ List.replicate 4 (Label.unit 1)) = some s ∧
        s.joined ∧ s.recorded = 1 ∧
        [((0 : Nat), allOk), (0, allOk)].countP (completes sampleContext []) = 2) ∧
    completes { sampleContext with accountConfig := "accounts.txt" } [⟨[97], [49]⟩] (1, allOk)
      = false ∧
    records (anonymousUnitRacing { sampleContext with accountConfig := "accounts.txt" }
      [⟨[97], [49]⟩] 1 allOk) = 0 :=
  ⟨⟨{ capacity := 2, tokens := 0, wg := 0, recorded := 1, pending := [],
      units := [[], []], halted := false, loaded := [] },
    by decide, by decide, rfl, by decide⟩, by decide, by decide⟩

/-- C3 (counterexample): ten messages, pool of two, the server unreachable on
every attempt: the run joins and `timeList` is empty, not of length ten. -/
theorem ten_unreachable_record_nothing :
    ∃ s, (Sys.init 2 (anonymousPrograms sampleContext []
            (List.replicate 10 (0, unreachable)))).run (sequentialSchedule 10 3) = some s ∧
      s.joined ∧ s.recorded = 0 ∧
      s.recorded ≠ (List.replicate 10 ((0 : Nat), unreachable)).length :=
  ⟨{ capacity := 2, tokens := 0, wg := 0, recorded := 0, pending := [],
     units := List.replicate 10 [], halted := false },
    by decide, by decide, rfl, by decide⟩

/-! ### C4: account rotation -/

/-- One draw on a non-empty list from an index `i ≤ M`: the index dereferenced
is `i mod M`, the account is the one stored there, the index moves on by one. -/
theorem drawAccount_of_le (accountInfo : List Account) (hM : 1 ≤ accountInfo.length)
    (i : Nat) (hi : i ≤ accountInfo.length) :
    drawAccount accountInfo i
      = some (i % accountInfo.length,
          accountInfo.get ⟨i % accountInfo.length, Nat.mod_lt i hM⟩,
          i % accountInfo.length + 1) := by
  rw [drawAccount_unfold]
  by_cases hge : i ≥ accountInfo.length
  · have hi2 : i = accountInfo.length := by omega
    have hmod : i % accountInfo.length = 0 := by rw [hi2]; exact Nat.mod_self _
    rw [if_pos hge]
    simp only [hmod]
    rw [List.get?_eq_get (by omega)]
  · have hlt : i < accountInfo.length := by omega
    have hmod : i % accountInfo.length = i := Nat.mod_eq_of_lt hlt
    rw [if_neg hge]
    simp only [hmod]
    rw [List.get?_eq_get hlt]

/-- Sequential draws on a non-empty list from any index `i ≤ M`. -/
theorem drawMany_from (accountInfo : List Account) (hM : 1 ≤ accountInfo.length) (k : Nat) :
    ∀ i, i ≤ accountInfo.length →
      drawMany accountInfo i k = some ((List.range k).map (fun j =>
        ((i + j) % accountInfo.length,
          accountInfo.get ⟨(i + j) % accountInfo.length, Nat.mod_lt (i + j) hM⟩))) := by
  induction k with
  | zero => intro i _; simp [drawMany]
  | succ k ih =>
    intro i hi
    have hlt : i % accountInfo.length < accountInfo.length := Nat.mod_lt i hM
    rw [drawMany, drawAccount_of_le accountInfo hM i hi]
    simp only
    rw [ih (i % accountInfo.length + 1) (by omega)]
    simp only [List.range_succ_eq_map, List.map_cons, List.map_map, Nat.add_zero]
    congr 2
    apply List.map_congr_left
    intro j _
    have hmod : (i % accountInfo.length + 1 + j) % accountInfo.length
        = (i + (j + 1)) % accountInfo.length := by
      rw [Nat.add_assoc, Nat.add_mod, Nat.mod_mod, ← Nat.add_mod, Nat.add_comm 1 j]
    simp only [Function.comp, Nat.succ_eq_add_one]
    congr 1
    · simp only [hmod]

/-- C4: for an account list of length `M ≥ 1`, the first `K + 1` sequential draws
from index 0 all succeed; the `j`-th of them (0-based, `j ≤ K`) dereferences the
index `j mod M`, which is in range, and returns the account stored there. With
three accounts the seven draws of seven messages use the accounts
0, 1, 2, 0, 1, 2, 0. -/
theorem drawMany_round_robin (accountInfo : List Account) (hM : 1 ≤ accountInfo.length)
    (K : Nat) :
    drawMany accountInfo 0 (K + 1) = some ((List.range (K + 1)).map (fun j =>
        (j % accountInfo.length,
          accountInfo.get ⟨j % accountInfo.length, Nat.mod_lt j hM⟩))) ∧
    (∀ j, j ≤ K → j % accountInfo.length < accountInfo.length) ∧
    (∀ a0 a1 a2 : Account,
      (drawMany [a0, a1, a2] 0 7).map (fun draws => draws.map (fun d => d.2.Username))
        = some [a0.Username, a1.Username, a2.Username, a0.Username, a1.Username,
            a2.Username, a0.Username]) := by
  refine ⟨?_, fun j _ => Nat.mod_lt j hM, ?_⟩
  · have h := drawMany_from accountInfo hM (K + 1) 0 (Nat.zero_le _)
    simpa using h
  · intro a0 a1 a2
    simp [drawMany, drawAccount]

/-- Witness of C4: two accounts, three draws. -/
theorem drawMany_round_robin_witness :
    1 ≤ [(⟨[97], [49]⟩ : Account), ⟨[98], [50]⟩].length ∧
    drawMany [⟨[97], [49]⟩, ⟨[98], [50]⟩] 0 3
      = some [(0, ⟨[97], [49]⟩), (1, ⟨[98], [50]⟩), (0, ⟨[97], [49]⟩)] := by
  refine ⟨by decide, ?_⟩
  have h := (drawMany_round_robin [⟨[97], [49]⟩, ⟨[98], [50]⟩] (by decide) 2).1
  simpa [List.range_succ_eq_map] using h

/-- Seven messages sent one after the other in Anonymous mode with an account
file of three accounts, every call succeeding: the envelope senders are the
accounts 0, 1, 2, 0, 1, 2, 0. -/
theorem anonymous_seven_senders (a0 a1 a2 : Account) :
    (anonymousSequential { sampleContext with accountConfig := "accounts.txt" } [a0, a1, a2] 0
        (List.replicate 7 allOk)).map sendersOf
      = [[a0.Username], [a1.Username], [a2.Username], [a0.Username], [a1.Username],
          [a2.Username], [a0.Username]] := by
  simp [anonymousSequential, anonymousUnit, anonymousBody, drawAccount, sendersOf, allOk,
    sampleContext, ReadEml, List.replicate]

/-! ### C5: the summary -/

/-- C5: on the empty collection the summary computation divides by zero: the
result is the run-time panic. -/
theorem summary_empty_divides_by_zero : summary [] = none := by
  decide

/-- On a non-empty collection the summary is computed and the average is the
truncated quotient of the computed sum by the count. -/
theorem summary_nonempty (timeList : List Int) (hne : timeList ≠ []) :
    summary timeList = some
      { sum := sumLoop timeList,
        avg := Int.tdiv (sumLoop timeList) (timeList.length : Int),
        max := maxLoop timeList } := by
  have hlen : (timeList.length : Int) ≠ 0 := by
    have : timeList.length ≠ 0 := by simpa using hne
    exact_mod_cast this
  simp [summary, hlen]

/-! ### C6: which failures end the process in Login mode -/

/-- Which Login attempts end in `log.Fatalf`, among those that reach the
authentication step: the ones whose authentication fails and, in the
time-bounded variant only, the ones whose `Mail` or `Rcpt` fails. -/
theorem loginUnit_fatal_iff (timed : Bool) (ctx : Context) (accountInfo : List Account)
    (accountIndex : Nat) (o : Outcome) (hacc : ctx.accountConfig = "" ∨ accountInfo ≠ [])
    (hfile : o.file.isSome = true) (hdial : o.dial = true) (hclient : o.newClient = true) :
    Event.fatal ∈ (loginUnit timed ctx accountInfo accountIndex o).1 ↔
      (o.auth = false ∨ (timed = true ∧ (o.mail = false ∨ o.rcpt = false))) := by
  obtain ⟨content, hcontent⟩ := Option.isSome_iff_exists.mp hfile
  unfold loginUnit
  by_cases hc : ctx.accountConfig = ""
  · cases timed <;> cases ha : o.auth <;> cases hm : o.mail <;> cases hr : o.rcpt <;>
      cases hdata : o.data <;> cases hw : o.write <;>
      simp [hc, hcontent, hdial, hclient, ReadEml]
  · have hne : accountInfo ≠ [] := hacc.resolve_left hc
    cases hdraw : drawAccount accountInfo accountIndex with
    | none => exact absurd ((drawAccount_eq_none_iff _ _).mp hdraw) hne
    | some d =>
      cases timed <;> cases ha : o.auth <;> cases hm : o.mail <;> cases hr : o.rcpt <;>
        cases hdata : o.data <;> cases hw : o.write <;>
        simp [hc, hcontent, hdial, hclient, ReadEml]

/-- A Login attempt that reaches the data step and cannot open the data channel
ends in a panic that nothing recovers. -/
theorem loginUnit_data_failure_crashes (timed : Bool) (ctx : Context)
    (accountInfo : List Account) (accountIndex : Nat) (o : Outcome)
    (hacc : ctx.accountConfig = "" ∨ accountInfo ≠ [])
    (hfile : o.file.isSome = true) (hdial : o.dial = true) (hclient : o.newClient = true)
    (hauth : o.auth = true) (hmail : o.mail = true) (hrcpt : o.rcpt = true)
    (hdata : o.data = false) :
    Event.crash ∈ (loginUnit timed ctx accountInfo accountIndex o).1 := by
  obtain ⟨content, hcontent⟩ := Option.isSome_iff_exists.mp hfile
  unfold loginUnit
  by_cases hc : ctx.accountConfig = ""
  · cases timed <;> simp [hc, hcontent, hdial, hclient, hauth, hmail, hrcpt, hdata, ReadEml]
  · have hne : accountInfo ≠ [] := hacc.resolve_left hc
    cases hdraw : drawAccount accountInfo accountIndex with
    | none => exact absurd ((drawAccount_eq_none_iff _ _).mp hdraw) hne
    | some d =>
      cases timed <;> simp [hc, hcontent, hdial, hclient, hauth, hmail, hrcpt, hdata, ReadEml]

/-- C6: in the time-bounded variant of Login mode an attempt whose
authentication succeeds and whose `Mail` (or `Rcpt`) fails ends in
`log.Fatalf`; the same attempt in the unbounded variant does not; an attempt
whose `Data` fails ends in an unrecovered panic in both variants. -/
theorem login_timed_envelope_failure_fatal :
    allOk.auth = true ∧
    Event.fatal ∈ (loginUnit true sampleContext [] 0 { allOk with mail := false }).1 ∧
    Event.fatal ∈ (loginUnit true sampleContext [] 0 { allOk with rcpt := false }).1 ∧
    Event.fatal ∉ (loginUnit false sampleContext [] 0 { allOk with mail := false }).1 ∧
    Event.fatal ∉ (loginUnit false sampleContext [] 0 { allOk with rcpt := false }).1 ∧
    Event.crash ∈ (loginUnit true sampleContext [] 0 { allOk with data := false }).1 ∧
    Event.crash ∈ (loginUnit false sampleContext [] 0 { allOk with data := false }).1 := by
  decide

/-! ### C7 and C8: the admission loop -/

/-- The admission loop admits the first `k` remaining messages, `k` being the first boundary from `i` on at which the `select` does not take `default`. -/
theorem admitLoop_spec (sel : Boundary → Branch) (obs : Nat → Boundary) (src : List GoBytes) :
    ∀ (i senderNum : Nat) (admitted : List GoBytes),
      ∃ k, k ≤ src.length ∧
        (admitLoop sel obs i src senderNum admitted).senderNum = senderNum + k ∧
        (admitLoop sel obs i src senderNum admitted).admitted = admitted ++ src.take k ∧
        (∀ j, j < k → sel (obs (i + j)) = .goAhead) ∧
        (k < src.length → sel (obs (i + k)) ≠ .goAhead) ∧
        (k = src.length → (admitLoop sel obs i src senderNum admitted).exit = .exhausted) := by
  induction src with
  | nil =>
    intro i n adm
    exact ⟨0, by simp [admitLoop]⟩
  | cons m rest ih =>
    intro i n adm
    cases hsel : sel (obs i) with
    | timerEnd =>
      refine ⟨0, by simp, by simp [admitLoop, hsel], by simp [admitLoop, hsel], by simp, ?_, by simp⟩
      intro _
      simp [hsel]
    | signalReturn =>
      refine ⟨0, by simp, by simp [admitLoop, hsel], by simp [admitLoop, hsel], by simp, ?_, by simp⟩
      intro _
      simp [hsel]
    | goAhead =>
      obtain ⟨k, hk, hnum, hadm, hall, hstop, hex⟩ := ih (i + 1) (n + 1) (adm ++ [m])
      refine ⟨k + 1, by simpa using hk, ?_, ?_, ?_, ?_, ?_⟩
      · simp only [admitLoop, hsel]
        omega
      · simp only [admitLoop, hsel]
        simp [hadm]
      · intro j hj
        cases j with
        | zero => simpa using hsel
        | succ j =>
          have := hall j (by omega)
          rwa [show i + (j + 1) = i + 1 + j by omega]
      · intro hlt
        have := hstop (by simpa using hlt)
        rwa [show i + (k + 1) = i + 1 + k by omega]
      · intro hlen
        simp only [admitLoop, hsel]
        exact hex (by simpa using hlen)

/-- C8: for every source list and every pattern of cancellation at the admission
boundaries, in every command, the admitted messages are the prefix of the
source list of length `senderNum`, `senderNum` does not exceed the total
count, every boundary before `senderNum` took the `default` branch and the
boundary at `senderNum`, when there is one, observed a cancellation. -/
theorem admission_is_prefix (mode : Mode) (timeThreshold : Int) (src : List GoBytes)
    (obs : Nat → Boundary) :
    (admission mode timeThreshold src obs).admitted
        = src.take (admission mode timeThreshold src obs).senderNum ∧
    (admission mode timeThreshold src obs).senderNum
        = (admission mode timeThreshold src obs).admitted.length ∧
    (admission mode timeThreshold src obs).senderNum ≤ src.length ∧
    (∀ j, j < (admission mode timeThreshold src obs).senderNum →
        selectOf mode timeThreshold (obs j) = .goAhead) ∧
    ((admission mode timeThreshold src obs).senderNum < src.length →
        selectOf mode timeThreshold (obs (admission mode timeThreshold src obs).senderNum)
          ≠ .goAhead) := by
  obtain ⟨k, hk, hnum, hadm, hall, hstop, -⟩ :=
    admitLoop_spec (selectOf mode timeThreshold) obs src 0 0 []
  have hnum1 : (admission mode timeThreshold src obs).senderNum = k := by
    simpa [admission] using hnum
  have hadm1 : (admission mode timeThreshold src obs).admitted = src.take k := by
    simpa [admission] using hadm
  rw [hnum1, hadm1]
  refine ⟨rfl, ?_, hk, ?_, ?_⟩
  · simp [List.length_take, hk]
  · intro j hj
    simpa using hall j hj
  · intro hlt
    simpa using hstop hlt

/-- In Anonymous and Login mode with `timeThreshold > 0`, a boundary at which
the timer has fired is never passed. -/
theorem timed_admission_stops (mode : Mode) (hmode : mode ≠ .Replay) (timeThreshold : Int)
    (hT : 0 < timeThreshold) (src : List GoBytes) (obs : Nat → Boundary) (i : Nat)
    (hfired : (obs i).timerFired = true) :
    (admission mode timeThreshold src obs).senderNum ≤ i := by
  obtain ⟨k, hk, hnum, -, hall, -, -⟩ :=
    admitLoop_spec (selectOf mode timeThreshold) obs src 0 0 []
  have hnum1 : (admission mode timeThreshold src obs).senderNum = k := by
    simpa [admission] using hnum
  rw [hnum1]
  by_contra hlt
  have hgo := hall i (by omega)
  have hsel : selectOf mode timeThreshold = selectTimed := by
    cases mode <;> simp_all [selectOf]
  rw [hsel] at hgo
  rw [Nat.zero_add] at hgo
  unfold selectTimed at hgo
  rw [hfired] at hgo
  cases hs : (obs i).signalPending <;> cases hp : (obs i).pickTimer <;> simp [hs, hp] at hgo

/-- C7: in Replay mode the admission loop has no timer: with any
`timeThreshold` and the deadline elapsed at every boundary (no signal), every
message of the source is admitted. -/
theorem replay_admits_after_deadline (timeThreshold : Int) (src : List GoBytes) :
    (admission .Replay timeThreshold src
        (fun _ => { timerFired := true, signalPending := false, pickTimer := true })).admitted
      = src ∧
    (admission .Replay timeThreshold src
        (fun _ => { timerFired := true, signalPending := false, pickTimer := true })).senderNum
      = src.length := by
  obtain ⟨k, hk, hnum, hadm, -, hstop, -⟩ :=
    admitLoop_spec (selectOf .Replay timeThreshold)
      (fun _ => { timerFired := true, signalPending := false, pickTimer := true }) src 0 0 []
  have hk2 : k = src.length := by
    by_contra hne
    exact hstop (by omega) (by simp [selectOf, selectUntimed])
  subst hk2
  constructor
  · simpa [admission] using hadm
  · simpa [admission] using hnum

/-! ### C9: pacing -/

/-- C9: in Replay mode the pacing delay for `sleep = 1`, `sleepUnit = "ms"` is
one second, not one millisecond; Anonymous and Login mode sleep one
millisecond. -/
theorem replay_pacing_ignores_sleepUnit :
    pacingDelay .Replay 1 "ms" = 1000000000 ∧
    pacingDelay .Replay 1 "ms" ≠ 1 * TIME_UNIT "ms" ∧
    pacingDelay .Anonymous 1 "ms" = 1 * TIME_UNIT "ms" ∧
    pacingDelay .Login 1 "ms" = 1 * TIME_UNIT "ms" := by
  decide

/-- A product in the range of `int64` is not changed by the wrap-around. -/
theorem wrap64_of_inRange (x : Int) (hlo : -(2 ^ 63) ≤ x) (hhi : x < 2 ^ 63) :
    wrap64 x = x := by
  unfold wrap64
  rw [Int.emod_eq_of_lt (by omega) (by omega)]
  omega

/-- The four units of `TIME_UNIT` in nanoseconds. -/
theorem TIME_UNIT_values :
    TIME_UNIT "s" = 10 ^ 9 ∧ TIME_UNIT "ms" = 10 ^ 6 ∧ TIME_UNIT "us" = 10 ^ 3 ∧
    TIME_UNIT "ns" = 1 := by
  decide

/-- In Anonymous and Login mode the pacing delay is `sleep * TIME_UNIT sleepUnit`
whenever that product fits in 64 bits. -/
theorem pacingDelay_anonymous_login (mode : Mode) (hmode : mode ≠ .Replay) (sleep : Int)
    (sleepUnit : String) (hlo : -(2 ^ 63) ≤ sleep * TIME_UNIT sleepUnit)
    (hhi : sleep * TIME_UNIT sleepUnit < 2 ^ 63) :
    pacingDelay mode sleep sleepUnit = sleep * TIME_UNIT sleepUnit := by
  cases mode with
  | Anonymous => exact wrap64_of_inRange _ hlo hhi
  | Login => exact wrap64_of_inRange _ hlo hhi
  | Replay => exact absurd rfl hmode

/-- In Replay mode the pacing delay is `sleep` seconds for every `sleepUnit`. -/
theorem pacingDelay_replay (sleep : Int) (sleepUnit : String)
    (hlo : -(2 ^ 63) ≤ sleep * 10 ^ 9) (hhi : sleep * 10 ^ 9 < 2 ^ 63) :
    pacingDelay .Replay sleep sleepUnit = sleep * 10 ^ 9 := by
  have h := wrap64_of_inRange (sleep * 10 ^ 9) hlo hhi
  simpa [pacingDelay] using h

/-! ### The model of `bytes.Split` -/

/-- The model of `bytes.Split` returns at least one segment. -/
theorem bytesSplit_ne_nil (sep : UInt8) (s : GoBytes) : bytesSplit sep s ≠ [] := by
  cases s with
  | nil => simp [bytesSplit]
  | cons b rest =>
    unfold bytesSplit
    by_cases h : b = sep
    · simp [h]
    · simp only [h, if_false]
      split <;> simp

/-- The segments of `bytesSplit` are one more than the separators in the input,
none of them contains the separator, and joining them with the separator gives
the input back. -/
theorem bytesSplit_spec (sep : UInt8) (s : GoBytes) :
    (bytesSplit sep s).length = s.count sep + 1 ∧
    (∀ seg ∈ bytesSplit sep s, sep ∉ seg) ∧
    List.intercalate [sep] (bytesSplit sep s) = s := by
  induction s with
  | nil => simp [bytesSplit, List.intercalate]
  | cons b rest ih =>
    obtain ⟨hlen, hno, hjoin⟩ := ih
    unfold bytesSplit
    by_cases h : b = sep
    · subst h
      simp only [if_true]
      refine ⟨by simp [hlen], ?_, ?_⟩
      · intro seg hseg
        rcases List.mem_cons.mp hseg with rfl | hseg
        · simp
        · exact hno seg hseg
      · rcases hsplit : bytesSplit b rest with _ | ⟨hd, tl⟩
        · exact absurd hsplit (bytesSplit_ne_nil b rest)
        · rw [hsplit] at hjoin
          simp only [List.intercalate, List.intersperse, List.flatten] at hjoin ⊢
          simpa using hjoin
    · simp only [h, if_false]
      rcases hsplit : bytesSplit sep rest with _ | ⟨hd, tl⟩
      · exact absurd hsplit (bytesSplit_ne_nil sep rest)
      · rw [hsplit] at hlen hno hjoin
        have hne : ¬ (b == sep) = true := by simpa using h
        refine ⟨?_, ?_, ?_⟩
        · simp only [List.length_cons] at hlen ⊢
          rw [List.count_cons, if_neg hne]
          omega
        · intro seg hseg
          rcases List.mem_cons.mp hseg with rfl | hseg
          · intro hmem
            rcases List.mem_cons.mp hmem with heq | hmem
            · exact h heq.symm
            · exact hno hd (List.mem_cons_self _ _) hmem
          · exact hno seg (List.mem_cons_of_mem _ hseg)
        · cases tl with
          | nil =>
            simp only [List.intercalate, List.intersperse, List.flatten, List.append_nil]
              at hjoin ⊢
            rw [hjoin]
          | cons t ts =>
            simp only [List.intercalate, List.intersperse, List.flatten] at hjoin ⊢
            rw [← hjoin]
            simp

/-! ### C10: the account file -/

/-- The loop over the lines is fatal exactly on a line without two fields, and otherwise appends one account per line. -/
theorem readAccountLines_spec (lines : List GoBytes) (acc : List Account) :
    (readAccountLines lines acc = none ↔
        ∃ line ∈ lines, (bytesSplit comma line).length ≠ 2) ∧
    ((∀ line ∈ lines, (bytesSplit comma line).length = 2) →
      readAccountLines lines acc = some (acc ++ lines.map (fun line =>
        { Username := (bytesSplit comma line).getD 0 [],
          Password := (bytesSplit comma line).getD 1 [] }))) := by
  induction lines generalizing acc with
  | nil => simp [readAccountLines]
  | cons line rest ih =>
    rcases h : bytesSplit comma line with _ | ⟨u, _ | ⟨p, _ | ⟨x, tl⟩⟩⟩
    · simp [readAccountLines, h]
    · simp [readAccountLines, h]
    · have ih1 := ih (acc ++ [{ Username := u, Password := p }])
      constructor
      · simp [readAccountLines, h, ih1.1]
      · intro hall
        have hrest : ∀ l ∈ rest, (bytesSplit comma l).length = 2 :=
          fun l hl => hall l (List.mem_cons_of_mem _ hl)
        simp [readAccountLines, h, ih1.2 hrest]
    · simp [readAccountLines, h]

/-- C10: on every file content `ReadAccountConfig` ends fatally exactly when some
line (segment between newline bytes) does not split on the comma into two
fields; when every line has two fields it returns one account per line, in
line order, built from the first and the second field. -/
theorem ReadAccountConfig_fatal_iff_bad_line (content : GoBytes) :
    (ReadAccountConfig (some content) = none ↔
        ∃ line ∈ bytesSplit newline content, (bytesSplit comma line).length ≠ 2) ∧
    ((∀ line ∈ bytesSplit newline content, (bytesSplit comma line).length = 2) →
      ReadAccountConfig (some content) = some ((bytesSplit newline content).map (fun line =>
        { Username := (bytesSplit comma line).getD 0 [],
          Password := (bytesSplit comma line).getD 1 [] }))) := by
  have h := readAccountLines_spec (bytesSplit newline content) []
  simpa [ReadAccountConfig] using h

/-! ### C11: the sender and the credential without accounts -/

/-- A list returned by `ReadAccountConfig` has at least one account: the file
has at least one line and every line gives an account. -/
theorem ReadAccountConfig_length_pos (file : Option GoBytes) (accs : List Account)
    (hsome : ReadAccountConfig file = some accs) : 1 ≤ accs.length := by
  cases file with
  | none => exact Option.noConfusion hsome
  | some content =>
    have hsome1 : readAccountLines (bytesSplit newline content) [] = some accs := hsome
    have hspec := readAccountLines_spec (bytesSplit newline content) []
    have hgood : ∀ line ∈ bytesSplit newline content, (bytesSplit comma line).length = 2 := by
      intro line hline
      by_contra hbad
      have hnone := hspec.1.mpr ⟨line, hline, hbad⟩
      rw [hnone] at hsome1
      exact Option.noConfusion hsome1
    rw [hspec.2 hgood] at hsome1
    injection hsome1 with hsome1
    subst hsome1
    have hpos : 0 < (bytesSplit newline content).length :=
      List.length_pos.mpr (bytesSplit_ne_nil newline content)
    simpa using hpos

/-- In a run the account list is empty exactly when no account file is
configured. -/
theorem loadAccountInfo_nil_iff (ctx : Context) (file : Option GoBytes)
    (accountInfo : List Account) (hload : loadAccountInfo ctx file = some accountInfo) :
    accountInfo = [] ↔ ctx.accountConfig = "" := by
  unfold loadAccountInfo at hload
  by_cases hc : ctx.accountConfig = ""
  · simp only [hc, ne_eq, not_true_eq_false, if_false] at hload
    injection hload with hload
    simp [hc, hload.symm]
  · simp only [ne_eq, hc, not_false_eq_true, if_true] at hload
    have hpos := ReadAccountConfig_length_pos file accountInfo hload
    constructor
    · intro hnil
      rw [hnil] at hpos
      simp at hpos
    · intro h
      exact absurd h hc

/-- Without an account file the sender is the fixed address, the list is not
dereferenced and the index is left alone, whatever the list and the index. -/
theorem senderDraw_without_file (ctx : Context) (hc : ctx.accountConfig = "")
    (accountInfo : List Account) (accountIndex : Nat) :
    senderDraw ctx accountInfo accountIndex = some (none, ctx.fromAddr, accountIndex) := by
  simp [senderDraw, hc]

/-- Without an account file the credential is the fixed pair, the list is not
dereferenced and the index is left alone, whatever the list and the index. -/
theorem credentialDraw_without_file (ctx : Context) (hc : ctx.accountConfig = "")
    (accountInfo : List Account) (accountIndex : Nat) :
    credentialDraw ctx accountInfo accountIndex
      = some (none, ctx.fromAddr, ctx.password, accountIndex) := by
  simp [credentialDraw, hc]

/-- With an account file configured the draw indexes the list: it faults
exactly on the empty list. -/
theorem senderDraw_with_file (ctx : Context) (hc : ctx.accountConfig ≠ "")
    (accountInfo : List Account) (accountIndex : Nat) :
    (senderDraw ctx accountInfo accountIndex = none ↔ accountInfo = []) ∧
    (credentialDraw ctx accountInfo accountIndex = none ↔ accountInfo = []) := by
  have h := drawAccount_eq_none_iff accountInfo accountIndex
  unfold senderDraw credentialDraw
  cases hdraw : drawAccount accountInfo accountIndex with
  | none =>
    have hnil := h.mp hdraw
    simp [hc, hnil]
  | some d =>
    have hne : accountInfo ≠ [] := by
      intro hnil
      rw [h.mpr hnil] at hdraw
      exact Option.noConfusion hdraw
    simp [hc, hne]

/-- The Anonymous unit takes its sender from `senderDraw`: an attempt that
reaches the envelope step hands the drawn address to `client.Mail` and leaves
the drawn index, or panics when the draw faults. -/
theorem anonymousUnit_uses_senderDraw (ctx : Context) (accountInfo : List Account)
    (accountIndex : Nat) (o : Outcome) (hfile : o.file.isSome = true) (hdial : o.dial = true)
    (hclient : o.newClient = true) :
    (senderDraw ctx accountInfo accountIndex = none →
      sendersOf (anonymousUnit ctx accountInfo accountIndex o).1 = [] ∧
      Event.recovered ∈ (anonymousUnit ctx accountInfo accountIndex o).1) ∧
    (∀ d sender next, senderDraw ctx accountInfo accountIndex = some (d, sender, next) →
      sendersOf (anonymousUnit ctx accountInfo accountIndex o).1 = [sender] ∧
      (anonymousUnit ctx accountInfo accountIndex o).2 = next) := by
  obtain ⟨content, hcontent⟩ := Option.isSome_iff_exists.mp hfile
  unfold senderDraw anonymousUnit anonymousBody sendersOf
  by_cases hc : ctx.accountConfig = "" <;>
    cases hdraw : drawAccount accountInfo accountIndex <;>
    cases hdata : o.data <;>
    simp [hc, hcontent, hdial, hclient, ReadEml, List.filterMap_cons]

/-- A Login unit whose draw faults ends in an unrecovered panic before any
call. -/
theorem loginUnit_draw_fault (timed : Bool) (ctx : Context) (accountInfo : List Account)
    (accountIndex : Nat) (o : Outcome)
    (hnone : credentialDraw ctx accountInfo accountIndex = none) :
    (loginUnit timed ctx accountInfo accountIndex o).1
      = (if timed then [Event.sendResult] else []) ++ [Event.crash] := by
  unfold credentialDraw at hnone
  unfold loginUnit
  by_cases hc : ctx.accountConfig = "" <;>
    cases hdraw : drawAccount accountInfo accountIndex <;>
    simp [hc, hdraw] at hnone ⊢

/-- The Login unit after a successful draw: every pair handed to
`client.Auth` and every address handed to `client.Mail` is the drawn one, and
the index is the one the draw returns. -/
theorem loginUnit_uses_credentialDraw (timed : Bool) (ctx : Context)
    (accountInfo : List Account) (accountIndex : Nat) (o : Outcome) (d : Option Nat)
    (username password : GoBytes) (next : Nat)
    (hsome : credentialDraw ctx accountInfo accountIndex = some (d, username, password, next)) :
    (∀ c ∈ credentialsOf (loginUnit timed ctx accountInfo accountIndex o).1,
      c = (username, password)) ∧
    (∀ s ∈ sendersOf (loginUnit timed ctx accountInfo accountIndex o).1, s = username) ∧
    (loginUnit timed ctx accountInfo accountIndex o).2 = next := by
  have hcred : (if ctx.accountConfig ≠ "" then
        match drawAccount accountInfo accountIndex with
        | none => none
        | some (_, a, nxt) => some (a.Username, a.Password, nxt)
      else some (ctx.fromAddr, ctx.password, accountIndex))
      = some (username, password, next) := by
    unfold credentialDraw at hsome
    by_cases hc : ctx.accountConfig = ""
    · simp only [hc, ne_eq, not_true_eq_false, if_false, Option.some.injEq, Prod.mk.injEq]
        at hsome ⊢
      exact hsome.2
    · cases hdraw : drawAccount accountInfo accountIndex with
      | none => simp [hc, hdraw] at hsome
      | some r =>
        simp only [hc, hdraw, ne_eq, not_false_eq_true, if_true, Option.some.injEq,
          Prod.mk.injEq] at hsome ⊢
        exact hsome.2
  unfold loginUnit credentialsOf sendersOf
  simp only [hcred]
  cases hfile : ReadEml o.file with
  | none => cases timed <;> simp
  | some eml =>
    simp only []
    by_cases hd : o.dial = true
    swap
    · cases timed <;> simp [hd]
    by_cases hn : o.newClient = true
    swap
    · cases timed <;> simp [hd, hn]
    by_cases ha : o.auth = true
    swap
    · cases timed <;> simp [hd, hn, ha]
    cases timed
    · by_cases hdata : o.data = true
      swap
      · simp [hd, hn, ha, hdata]
      by_cases hw : o.write = true
      · simp [hd, hn, ha, hdata, hw]
      · simp [hd, hn, ha, hdata, hw]
    · by_cases hm : o.mail = true
      swap
      · simp [hd, hn, ha, hm]
      by_cases hr : o.rcpt = true
      swap
      · simp [hd, hn, ha, hm, hr]
      by_cases hdata : o.data = true
      swap
      · simp [hd, hn, ha, hm, hr, hdata]
      by_cases hw : o.write = true
      · simp [hd, hn, ha, hm, hr, hdata, hw]
      · simp [hd, hn, ha, hm, hr, hdata, hw]

/-- C11: when the account list of a run is empty, whatever the configuration
(an account-config path supplied or not: the list a supplied path gives is
never empty, so none was supplied) and for every state of the rotation index,
the sender of an Anonymous attempt is the fixed `from` address and the
credential of a Login attempt is the fixed `from` and `password`; no draw
dereferences the list or moves the index, and the units hand nothing else to
`client.Mail` and `client.Auth`. -/
theorem fixed_pair_when_list_empty (ctx : Context) (file : Option GoBytes)
    (accountInfo : List Account) (hload : loadAccountInfo ctx file = some accountInfo)
    (hempty : accountInfo = []) (accountIndex : Nat) :
    ctx.accountConfig = "" ∧
    senderDraw ctx accountInfo accountIndex = some (none, ctx.fromAddr, accountIndex) ∧
    credentialDraw ctx accountInfo accountIndex
      = some (none, ctx.fromAddr, ctx.password, accountIndex) ∧
    (∀ o, (∀ s ∈ sendersOf (anonymousUnit ctx accountInfo accountIndex o).1,
        s = ctx.fromAddr) ∧
      (anonymousUnit ctx accountInfo accountIndex o).2 = accountIndex) ∧
    (∀ timed o,
      (∀ c ∈ credentialsOf (loginUnit timed ctx accountInfo accountIndex o).1,
        c = (ctx.fromAddr, ctx.password)) ∧
      (∀ s ∈ sendersOf (loginUnit timed ctx accountInfo accountIndex o).1,
        s = ctx.fromAddr) ∧
      (loginUnit timed ctx accountInfo accountIndex o).2 = accountIndex) := by
  have hc : ctx.accountConfig = "" :=
    (loadAccountInfo_nil_iff ctx file accountInfo hload).mp hempty
  have hs := senderDraw_without_file ctx hc accountInfo accountIndex
  have hcr := credentialDraw_without_file ctx hc accountInfo accountIndex
  refine ⟨hc, hs, hcr, ?_, ?_⟩
  · intro o
    unfold anonymousUnit anonymousBody sendersOf
    cases hfile : ReadEml o.file <;> cases hd : o.dial <;> cases hn : o.newClient <;>
      cases hdata : o.data <;>
      simp [hc, List.filterMap_cons]
  · intro timed o
    exact loginUnit_uses_credentialDraw timed ctx accountInfo accountIndex o none
      ctx.fromAddr ctx.password accountIndex hcr

/-- Witness of C11: no account file, index 5. -/
theorem fixed_pair_when_list_empty_witness :
    loadAccountInfo sampleContext none = some [] ∧
    senderDraw sampleContext [] 5 = some (none, sampleContext.fromAddr, 5) ∧
    credentialDraw sampleContext [] 5
      = some (none, sampleContext.fromAddr, sampleContext.password, 5) :=
  ⟨by decide,
   (fixed_pair_when_list_empty sampleContext none [] (by decide) rfl 5).2.1,
   (fixed_pair_when_list_empty sampleContext none [] (by decide) rfl 5).2.2.1⟩

/-- Outside the runs: the draw is gated on the account-config path, not on the
length of the list. On a configuration with a path and an empty list, which
`loadAccountInfo` never produces, the draw would index the list at 0 and fault:
the Anonymous unit would recover without calling `client.Mail`, the Login unit
would end in an unrecovered panic. -/
theorem draw_on_empty_list_faults :
    senderDraw { sampleContext with accountConfig := "accounts.txt" } [] 0 = none ∧
    credentialDraw { sampleContext with accountConfig := "accounts.txt" } [] 0 = none ∧
    (anonymousUnit { sampleContext with accountConfig := "accounts.txt" } [] 0 allOk).1
      = [Event.dial true, Event.newClient true, Event.connClose, Event.recovered,
          Event.recvPool, Event.wgDone] ∧
    (loginUnit true { sampleContext with accountConfig := "accounts.txt" } [] 0 allOk).1
      = [Event.sendResult, Event.crash] ∧
    (loginUnit false { sampleContext with accountConfig := "accounts.txt" } [] 0 allOk).1
      = [Event.crash] := by
  decide

/-! ### C12: the bytes handed to the writer -/

/-- The reinterpreted header denotes the bytes of the string, whatever word
ends up as its capacity: `StringToBytes` on contents is what the cast does on
the values. -/
theorem castStringHeader_bytes (mem : Memory) (data : StringHeader) (next : Nat) :
    sliceBytes mem (castStringHeader data next) = StringToBytes (stringBytes mem data) := rfl

/-- What an Anonymous unit writes is the content of the message file. -/
theorem anonymousUnit_writes_file (ctx : Context) (accountInfo : List Account)
    (accountIndex : Nat) (o : Outcome) (b : GoBytes) (hfile : o.file = some b) :
    ∀ content ∈ writtenBy (anonymousUnit ctx accountInfo accountIndex o).1, content = b := by
  unfold anonymousUnit anonymousBody writtenBy
  cases hd : o.dial <;> cases hn : o.newClient <;> cases hdata : o.data <;>
    by_cases hc : ctx.accountConfig = "" <;>
    cases hdraw : drawAccount accountInfo accountIndex <;>
    simp [hfile, hc, ReadEml, StringToBytes, BytesToString, List.filterMap_cons]

/-- What a Login unit writes is the content of the message file. -/
theorem loginUnit_writes_file (timed : Bool) (ctx : Context) (accountInfo : List Account)
    (accountIndex : Nat) (o : Outcome) (b : GoBytes) (hfile : o.file = some b) :
    ∀ content ∈ writtenBy (loginUnit timed ctx accountInfo accountIndex o).1, content = b := by
  unfold loginUnit writtenBy
  simp only [hfile, ReadEml, StringToBytes, BytesToString]
  split
  · cases timed <;> simp
  · split_ifs <;> simp [List.filterMap_cons, List.filterMap_append]

/-- C12: for every message content `b` the bytes handed to the writer,
`StringToBytes` of the string `ReadEml` returns, are `b`; the two conversions
are inverse to each other; an Anonymous or Login unit writes nothing but `b`,
and writes `b` when its calls succeed. -/
theorem message_bytes_unchanged (b : GoBytes) :
    (ReadEml (some b)).map StringToBytes = some b ∧
    StringToBytes (BytesToString b) = b ∧
    BytesToString (StringToBytes b) = b ∧
    (∀ ctx accountInfo accountIndex o, o.file = some b →
      ∀ content ∈ writtenBy (anonymousUnit ctx accountInfo accountIndex o).1, content = b) ∧
    (∀ timed ctx accountInfo accountIndex o, o.file = some b →
      ∀ content ∈ writtenBy (loginUnit timed ctx accountInfo accountIndex o).1, content = b) ∧
    writtenBy (anonymousUnit sampleContext [] 0 { allOk with file := some b }).1 = [b] ∧
    writtenBy (loginUnit true sampleContext [] 0 { allOk with file := some b }).1 = [b] ∧
    writtenBy (loginUnit false sampleContext [] 0 { allOk with file := some b }).1 = [b] := by
  refine ⟨rfl, rfl, rfl, ?_, ?_, ?_, ?_, ?_⟩
  · intro ctx accountInfo accountIndex o hfile
    exact anonymousUnit_writes_file ctx accountInfo accountIndex o b hfile
  · intro timed ctx accountInfo accountIndex o hfile
    exact loginUnit_writes_file timed ctx accountInfo accountIndex o b hfile
  · simp [anonymousUnit, anonymousBody, writtenBy, allOk, sampleContext, ReadEml,
      StringToBytes, BytesToString]
  · simp [loginUnit, writtenBy, allOk, sampleContext, ReadEml, StringToBytes, BytesToString]
  · simp [loginUnit, writtenBy, allOk, sampleContext, ReadEml, StringToBytes, BytesToString]

/-! ### C13: the maximum and the sum of the summary -/

/-- Wrapping an intermediate sum does not change the wrapped total. -/
theorem wrap64_add_wrap64 (a b : Int) : wrap64 (wrap64 a + b) = wrap64 (a + b) := by
  unfold wrap64
  omega

/-- The sum loop from a wrapped accumulator. -/
theorem sumLoop_from (timeList : List Int) :
    ∀ acc : Int, timeList.foldl (fun sum v => wrap64 (sum + v)) (wrap64 acc)
      = wrap64 (acc + timeList.sum) := by
  induction timeList with
  | nil => intro acc; simp
  | cons v rest ih =>
    intro acc
    simp only [List.foldl_cons, List.sum_cons]
    rw [wrap64_add_wrap64, ih (acc + v), Int.add_assoc]

/-- The computed sum is the sum of the elements wrapped to 64 bits. -/
theorem sumLoop_eq_wrap64_sum (timeList : List Int) :
    sumLoop timeList = wrap64 timeList.sum := by
  have h := sumLoop_from timeList 0
  have h0 : wrap64 0 = 0 := by decide
  rw [h0, Int.zero_add] at h
  exact h

/-- The maximum loop from any start value: the result is at least the start
value and every element, and it is the start value or an element. -/
theorem maxLoop_from (timeList : List Int) :
    ∀ m0 : Int,
      m0 ≤ timeList.foldl (fun max v => if v > max then v else max) m0 ∧
      (∀ x ∈ timeList, x ≤ timeList.foldl (fun max v => if v > max then v else max) m0) ∧
      (timeList.foldl (fun max v => if v > max then v else max) m0 = m0 ∨
        timeList.foldl (fun max v => if v > max then v else max) m0 ∈ timeList) := by
  induction timeList with
  | nil => intro m0; simp
  | cons v rest ih =>
    intro m0
    simp only [List.foldl_cons]
    obtain ⟨hge, hall, hmem⟩ := ih (if v > m0 then v else m0)
    have hstart : m0 ≤ (if v > m0 then v else m0) ∧ v ≤ (if v > m0 then v else m0) := by
      split <;> omega
    refine ⟨by omega, ?_, ?_⟩
    · intro x hx
      rcases List.mem_cons.mp hx with rfl | hx
      · omega
      · exact hall x hx
    · rcases hmem with hmem | hmem
      · by_cases hv : v > m0
        · right
          rw [hmem, if_pos hv]
          exact List.mem_cons_self _ _
        · left
          rw [hmem, if_neg hv]
      · right
        exact List.mem_cons_of_mem _ hmem

/-- C13 (amended): for a non-empty collection of non-negative durations the
maximum computed by the summary loop is an element of the collection and is
at least every element; the computed sum is the sum of the elements wrapped to
64 bits, which is the sum itself when that sum is below `2 ^ 63`. -/
theorem summary_max_and_sum (timeList : List Int) (hne : timeList ≠ [])
    (hnonneg : ∀ x ∈ timeList, 0 ≤ x) :
    maxLoop timeList ∈ timeList ∧
    (∀ x ∈ timeList, x ≤ maxLoop timeList) ∧
    sumLoop timeList = wrap64 timeList.sum ∧
    (timeList.sum < 2 ^ 63 → sumLoop timeList = timeList.sum) := by
  obtain ⟨-, hall, hmem⟩ := maxLoop_from timeList 0
  have hsum := sumLoop_eq_wrap64_sum timeList
  have hsumnn : 0 ≤ timeList.sum := List.sum_nonneg hnonneg
  refine ⟨?_, hall, hsum, ?_⟩
  · rcases hmem with hzero | hmem
    · obtain ⟨y, hy⟩ := List.exists_mem_of_ne_nil timeList hne
      have h1 : y ≤ 0 := by
        have := hall y hy
        rw [hzero] at this
        exact this
      have h2 := hnonneg y hy
      have hy0 : y = 0 := by omega
      have hmax : maxLoop timeList = y := by
        unfold maxLoop
        rw [hzero, hy0]
      rw [hmax]
      exact hy
    · exact hmem
  · intro hlt
    rw [hsum]
    unfold wrap64
    omega

/-- Witness of C13 (amended): three durations. -/
theorem summary_max_and_sum_witness :
    ([3, 7, 5] : List Int) ≠ [] ∧ (∀ x ∈ ([3, 7, 5] : List Int), 0 ≤ x) ∧
    maxLoop [3, 7, 5] ∈ ([3, 7, 5] : List Int) ∧
    sumLoop [3, 7, 5] = ([3, 7, 5] : List Int).sum :=
  ⟨by decide, by decide,
   (summary_max_and_sum [3, 7, 5] (by decide) (by decide)).1,
   (summary_max_and_sum [3, 7, 5] (by decide) (by decide)).2.2.2 (by decide)⟩

/-- C13 (counterexample): two non-negative durations of `2 ^ 62` nanoseconds:
the computed sum is `-2 ^ 63`, not their sum `2 ^ 63`. -/
theorem sum_overflow_wraps :
    (∀ x ∈ [(4611686018427387904 : Int), 4611686018427387904], 0 ≤ x ∧ x < 2 ^ 63) ∧
    sumLoop [4611686018427387904, 4611686018427387904] = -9223372036854775808 ∧
    sumLoop [4611686018427387904, 4611686018427387904]
      ≠ ([4611686018427387904, 4611686018427387904] : List Int).sum := by
  decide

/-! ### C14: a trailing newline in the account file -/

/-- A separator at the end of the input adds one empty segment. -/
theorem bytesSplit_append_sep (sep : UInt8) (s : GoBytes) :
    bytesSplit sep (s ++ [sep]) = bytesSplit sep s ++ [[]] := by
  induction s with
  | nil => simp [bytesSplit]
  | cons b rest ih =>
    by_cases h : b = sep
    · simp [bytesSplit, h, ih]
    · rcases hsplit : bytesSplit sep rest with _ | ⟨hd, tl⟩
      · exact absurd hsplit (bytesSplit_ne_nil sep rest)
      · simp [bytesSplit, h, ih, hsplit]

/-- The empty segment has one field. -/
theorem bytesSplit_comma_nil : (bytesSplit comma []).length = 1 := by
  decide

/-- C14: on a content that is empty or ends with a newline byte
`ReadAccountConfig` ends fatally, whatever the lines before, because the last
segment is empty and has one field; and every list that `ReadAccountConfig`
returns has at least one account. -/
theorem ReadAccountConfig_trailing_newline_fatal (content : GoBytes) :
    (content = [] ∨ content.getLast? = some newline →
      ([] : GoBytes) ∈ bytesSplit newline content ∧
      ReadAccountConfig (some content) = none) ∧
    (∀ accs, ReadAccountConfig (some content) = some accs → 1 ≤ accs.length) := by
  constructor
  · intro h
    have hmem : ([] : GoBytes) ∈ bytesSplit newline content := by
      rcases h with h | h
      · subst h
        simp [bytesSplit]
      · obtain ⟨init, rfl⟩ := List.getLast?_eq_some_iff.mp h
        rw [bytesSplit_append_sep]
        simp
    refine ⟨hmem, ?_⟩
    have hspec := (readAccountLines_spec (bytesSplit newline content) []).1
    unfold ReadAccountConfig
    exact hspec.mpr ⟨[], hmem, by decide⟩
  · intro accs hsome
    exact ReadAccountConfig_length_pos (some content) accs hsome

/-- Witness of C14: two well-formed lines, each ended by a newline. -/
theorem ReadAccountConfig_trailing_newline_fatal_witness :
    ([97, 44, 49, 10, 98, 44, 50, 10] : GoBytes).getLast? = some newline ∧
    ReadAccountConfig (some [97, 44, 49, 10, 98, 44, 50, 10]) = none ∧
    ReadAccountConfig (some [97, 44, 49, 10, 98, 44, 50])
      = some [⟨[97], [49]⟩, ⟨[98], [50]⟩] :=
  ⟨by decide,
   ((ReadAccountConfig_trailing_newline_fatal [97, 44, 49, 10, 98, 44, 50, 10]).1
      (Or.inr (by decide))).2,
   by decide⟩

end SendEml
